import Mathlib

/-!
Verification development for the hashgraph consensus core
(`src/graph/graph.rs`, `src/algorithm/event.rs`,
`src/algorithm/datastructure/sync/mod.rs`).

The Rust code is shallowly embedded: `HashMap`s become association lists
with replace-on-insert, `HashSet`s become duplicate-free lists or
`Finset`s, panics (`unwrap`, `expect`, out-of-bounds indexing) become
`Option.none`, and the two recursions whose termination depends on the
graph being acyclic (`determine_round` and the ancestry iterator) take an
explicit fuel argument; the public wrappers instantiate the fuel with a
bound that suffices on every store whose parents precede their children.
-/

namespace Hashgraph

/-- `Modelled from the spec:` the 64-byte digest type of the missing module
`src/graph/event.rs` (the graph store keys events by it and reads its raw
bytes in the coin round); a digest is a list of bytes. -/
abbrev GHash := List Nat

abbrev PeerId := Nat

abbrev RoundNum := Nat

/-- Association-list lookup, the embedding of `HashMap::get`. -/
def lookupA {K V : Type} [DecidableEq K] : List (K × V) → K → Option V
  | [], _ => none
  | (k, v) :: t, k' => if k' = k then some v else lookupA t k'

/-- Association-list insert with replacement, the embedding of
`HashMap::insert` (an existing key keeps its position, a fresh key goes to
the back). -/
def insertA {K V : Type} [DecidableEq K] : List (K × V) → K → V → List (K × V)
  | [], k, v => [(k, v)]
  | (k', v') :: t, k, v => if k = k' then (k, v) :: t else (k', v') :: insertA t k v

/-- Association-list in-place update, the embedding of mutation through
`HashMap::get_mut`; a missing key leaves the map unchanged. -/
def updateA {K V : Type} [DecidableEq K] : List (K × V) → K → (V → V) → List (K × V)
  | [], _, _ => []
  | (k', v') :: t, k, f => if k = k' then (k, f v') :: t else (k', v') :: updateA t k f

/-- Duplicate-free list insert, the embedding of `HashSet::insert`. -/
def insertS {α : Type} [DecidableEq α] (l : List α) (a : α) : List α :=
  if a ∈ l then l else l ++ [a]

/-- `Modelled from the spec:` parents of a regular event, mirroring
`Parents` of the missing `src/graph/event.rs` (a self parent and an other
parent, both digests). -/
structure Parents where
  self_parent : GHash
  other_parent : GHash
deriving DecidableEq, Repr

/-- `Modelled from the spec:` event kind of the missing
`src/graph/event.rs`: an event is a genesis or a regular event with two
parents, exactly as `graph.rs` pattern-matches it. -/
inductive GKind : Type
  | Genesis : GKind
  | Regular : Parents → GKind
deriving DecidableEq, Repr

/-- `Modelled from the spec:` child pointers of the missing
`src/graph/event.rs`: an optional self child and a list of other
children, as `graph.rs` reads and writes them. -/
structure Children where
  self_child : Option GHash
  other_children : List GHash
deriving DecidableEq, Repr

/-- `Modelled from the spec:` the event record of the missing
`src/graph/event.rs`: the canonical digest, the payload, the kind, the
author, and the mutable child pointers, which is every field `graph.rs`
touches. -/
structure GEvent (P : Type) where
  hash : GHash
  payload : P
  kind : GKind
  author : PeerId
  children : Children
deriving DecidableEq, Repr

/-- `Modelled from the spec:` `Event::new` of the missing
`src/graph/event.rs` computes the digest of the payload, kind and author
through a hash function supplied here as the `hashFn` parameter, and
starts with empty child pointers. -/
def event_new {P : Type} (hashFn : P → GKind → PeerId → GHash)
    (payload : P) (kind : GKind) (author : PeerId) : GEvent P :=
  { hash := hashFn payload kind author
    payload := payload
    kind := kind
    author := author
    children := { self_child := none, other_children := [] } }

/-- `Modelled from the spec:` per-author entry of the missing
`src/graph/mod.rs`: the genesis hash, the latest event, and the forking
flag of §3 of the specification. -/
structure PeerIndexEntry where
  genesis : GHash
  latest_event : GHash
  forking : Bool
deriving DecidableEq, Repr

/-- `Modelled from the spec:` `PeerIndexEntry::new` of the missing
`src/graph/mod.rs`, as `push_node` calls it on a fresh genesis. -/
def PeerIndexEntry.new (h : GHash) : PeerIndexEntry :=
  { genesis := h, latest_event := h, forking := false }

/-- `Modelled from the spec:` `PeerIndexEntry::add_latest` of the missing
`src/graph/mod.rs`: records the new latest event of the author; the
`Option` result that `push_node` panics on is always `none` here. -/
def PeerIndexEntry.add_latest (e : PeerIndexEntry) (h : GHash) :
    Option GHash × PeerIndexEntry :=
  (none, { e with latest_event := h })

/-- `Modelled from the spec:` the push kinds accepted by `push_node`
(§4.C: Genesis, or Regular with the other parent's hash), from the
missing `src/graph/mod.rs`. -/
inductive PushKind : Type
  | Genesis : PushKind
  | Regular : GHash → PushKind
deriving DecidableEq, Repr

/-- `Modelled from the spec:` the error type of `push_node` (§6 of the
specification), from the missing `src/graph/mod.rs`. -/
inductive PushError : Type
  | NodeAlreadyExists : GHash → PushError
  | GenesisAlreadyExists : PushError
  | PeerNotFound : PeerId → PushError
  | NoParent : GHash → PushError
  | IncorrectAuthor : PeerId → PeerId → PushError
  | SelfChildAlreadyExists : GHash → PushError
deriving DecidableEq, Repr

/-- Fame states of a witness, from `WitnessFamousness` in
`src/graph/graph.rs`. -/
inductive WitnessFamousness : Type
  | Undecided : WitnessFamousness
  | Yes : WitnessFamousness
  | No : WitnessFamousness
deriving DecidableEq, Repr

/-- The `NotWitness` error of `src/graph/graph.rs`. -/
structure NotWitness where
deriving DecidableEq, Repr

/-- The graph state, from `struct Graph` in `src/graph/graph.rs`:
the event store, the peer index, the round index, the witness registry,
the round cache, the own id and the coin-round frequency. -/
structure Graph (P : Type) where
  all_events : List (GHash × GEvent P)
  peer_index : List (PeerId × PeerIndexEntry)
  round_index : List (List GHash)
  witnesses : List (GHash × WitnessFamousness)
  round_of : List (GHash × RoundNum)
  self_id : PeerId
  coin_frequency : Nat
deriving DecidableEq, Repr

/-- `Graph::members_count`: the number of peers in the index. -/
def members_count {P : Type} (g : Graph P) : Nat :=
  g.peer_index.length

/-- The state of `EventIter` in `src/graph/graph.rs`: the stack of events
to yield (a `Vec` pushed and popped at the back) and the visited set. -/
structure EventIter (P : Type) where
  node_list : List (GEvent P)
  visited_events : List GHash
deriving DecidableEq, Repr

/-- The `loop` body of `EventIter::push_self_ancestors`: pushes the
current event, marks the function's own argument `event_hash` visited
(the source inserts the argument on every iteration, not the hash of the
event just pushed), and walks to the self parent until it is visited or a
genesis is reached; fuel guards the walk, whose termination in the source
rests on the store being acyclic. -/
def push_chain {P : Type} (g : Graph P) (event_hash : GHash) :
    Nat → EventIter P → GEvent P → Option (EventIter P)
  | 0, _, _ => none
  | fuel + 1, it, ev =>
    let it' : EventIter P :=
      { node_list := it.node_list ++ [ev]
        visited_events := insertS it.visited_events event_hash }
    match ev.kind with
    | GKind.Genesis => some it'
    | GKind.Regular ps =>
      if ps.self_parent ∈ it'.visited_events then some it'
      else
        match lookupA g.all_events ps.self_parent with
        | none => none
        | some ev' => push_chain g event_hash fuel it' ev'

/-- `EventIter::push_self_ancestors`: a no-op on a visited argument,
otherwise looks the event up (`unwrap`) and runs the chain loop. -/
def push_self_ancestors {P : Type} (g : Graph P) (it : EventIter P)
    (event_hash : GHash) : Option (EventIter P) :=
  if event_hash ∈ it.visited_events then some it
  else
    match lookupA g.all_events event_hash with
    | none => none
    | some ev => push_chain g event_hash (g.all_events.length + 1) it ev

/-- `Graph::iter`: returns `none` when the event is absent, otherwise the
iterator built by `EventIter::new` (which pushes the start's self
ancestors) followed by the redundant second `push_self_ancestors` call
that `iter` makes on regular events. -/
def iter {P : Type} (g : Graph P) (event_hash : GHash) : Option (EventIter P) :=
  match lookupA g.all_events event_hash with
  | none => none
  | some ev =>
    match push_self_ancestors g { node_list := [], visited_events := [] } event_hash with
    | none => none
    | some e_iter =>
      match ev.kind with
      | GKind.Genesis => some e_iter
      | GKind.Regular _ => push_self_ancestors g e_iter event_hash

/-- `Iterator::next` for `EventIter`: pop the back of the stack, push the
popped event's other-parent chain, and yield the popped event. The outer
`Option` is a panic inside `push_self_ancestors`; the inner one is the
iterator's end. -/
def iter_next {P : Type} (g : Graph P) (it : EventIter P) :
    Option (Option (GEvent P × EventIter P)) :=
  match it.node_list.getLast? with
  | none => some none
  | some ev =>
    let it' : EventIter P := { it with node_list := it.node_list.dropLast }
    match ev.kind with
    | GKind.Genesis => some (some (ev, it'))
    | GKind.Regular ps =>
      match push_self_ancestors g it' ps.other_parent with
      | none => none
      | some it'' => some (some (ev, it''))

/-- Drains the iterator into the list of yielded events. -/
def iter_drain {P : Type} (g : Graph P) : Nat → EventIter P → Option (List (GEvent P))
  | 0, _ => none
  | fuel + 1, it =>
    match iter_next g it with
    | none => none
    | some none => some []
    | some (some (ev, it')) =>
      match iter_drain g fuel it' with
      | none => none
      | some l => some (ev :: l)

/-- Fuel that suffices to drain the iterator on a store whose self-parent
chains are acyclic: at most `|store| + 1` productive chain pushes of at
most `|store| + 1` events each. -/
def iter_fuel {P : Type} (g : Graph P) : Nat :=
  (g.all_events.length + 1) * (g.all_events.length + 1) + 1

/-- The full yield sequence of `Graph::iter` from `event_hash`. -/
def ancestors_list {P : Type} (g : Graph P) (event_hash : GHash) :
    Option (List (GEvent P)) :=
  match iter g event_hash with
  | none => none
  | some it => iter_drain g (iter_fuel g) it

/-- `Graph::ancestor`: both hashes are looked up (`unwrap`), then the
ancestry iterator of `target` is searched for `potential_ancestor`. -/
def ancestor {P : Type} (g : Graph P) (target potential_ancestor : GHash) :
    Option Bool :=
  match lookupA g.all_events target, lookupA g.all_events potential_ancestor with
  | some _, some _ =>
    match ancestors_list g target with
    | none => none
    | some l => some (l.any (fun e => decide (e.hash = potential_ancestor)))
  | _, _ => none

/-- `Graph::see`: the source only forwards to `ancestor` (the fork check
is a TODO there). -/
def see {P : Type} (g : Graph P) (observer target : GHash) : Option Bool :=
  ancestor g observer target

/-- The fold inside `Graph::strongly_see`: collect the authors of the
observer's ancestors that see the target. -/
def seen_authors {P : Type} (g : Graph P) (target : GHash) :
    List (GEvent P) → Finset PeerId → Option (Finset PeerId)
  | [], s => some s
  | e :: rest, s =>
    match see g e.hash target with
    | none => none
    | some b => seen_authors g target rest (if b then insert e.author s else s)

/-- `Graph::strongly_see`: the observer's ancestor iterator is unwrapped
(a panic when the observer is absent), the authors seeing the target are
collected, and their count is compared with `2n/3`. -/
def strongly_see {P : Type} (g : Graph P) (observer target : GHash) : Option Bool :=
  match iter g observer with
  | none => none
  | some it =>
    match iter_drain g (iter_fuel g) it with
    | none => none
    | some l =>
      match seen_authors g target l ∅ with
      | none => none
      | some authors_seen =>
        some (decide (authors_seen.card > 2 * members_count g / 3))

/-- `Graph::round_of` (the public query): the cache if present, else the
first round of the round index containing the hash; `none` is the
`expect` panic when neither has it. -/
def round_of {P : Type} (g : Graph P) (event_hash : GHash) : Option RoundNum :=
  match lookupA g.round_of event_hash with
  | some r => some r
  | none => g.round_index.findIdx? (fun round => decide (event_hash ∈ round))

/-- The fold inside `Graph::determine_round`: among the round's witnesses,
collect the authors of those the event strongly sees. -/
def witness_authors_fold {P : Type} (g : Graph P) (event_hash : GHash) :
    List (GEvent P) → Finset PeerId → Option (Finset PeerId)
  | [], s => some s
  | w :: rest, s =>
    match strongly_see g event_hash w.hash with
    | none => none
    | some b => witness_authors_fold g event_hash rest (if b then insert w.author s else s)

/-- `Graph::determine_round` with fuel for its recursion on the two
parents (the source recursion terminates because parents pre-exist):
genesis events are round `0`; a cached regular event returns its cache;
otherwise `r` is the parents' maximum and the round is `r + 1` exactly
when the witnesses of `rounds[r]` (the event itself excluded) strongly
seen by the event cover more than `2n/3` distinct authors. -/
def determine_round_f {P : Type} (g : Graph P) : Nat → GHash → Option RoundNum
  | 0, _ => none
  | fuel + 1, event_hash =>
    match lookupA g.all_events event_hash with
    | none => none
    | some ev =>
      match ev.kind with
      | GKind.Genesis => some 0
      | GKind.Regular ps =>
        match lookupA g.round_of event_hash with
        | some r => some r
        | none =>
          match determine_round_f g fuel ps.self_parent,
                determine_round_f g fuel ps.other_parent with
          | some rs, some ro =>
            let r := max rs ro
            match g.round_index.get? r with
            | none => none
            | some round_hashes =>
              match (round_hashes.filter
                      (fun eh => decide (eh ≠ event_hash))).mapM
                      (lookupA g.all_events) with
              | none => none
              | some round =>
                match witness_authors_fold g event_hash
                        (round.filter (fun e => (lookupA g.witnesses e.hash).isSome)) ∅ with
                | none => none
                | some witnesses_strongly_seen =>
                  let n := members_count g
                  some (if witnesses_strongly_seen.card > 2 * n / 3 then r + 1 else r)
          | _, _ => none

/-- `Graph::determine_round` with the fuel instantiated: one unit per
store entry plus one always suffices on stores whose parents pre-exist. -/
def determine_round {P : Type} (g : Graph P) (event_hash : GHash) : Option RoundNum :=
  determine_round_f g (g.all_events.length + 1) event_hash

/-- `Graph::determine_witness`: a genesis is a witness; a regular event is
one when its round exceeds its self parent's. -/
def determine_witness {P : Type} (g : Graph P) (event_hash : GHash) : Option Bool :=
  match lookupA g.all_events event_hash with
  | none => none
  | some ev =>
    match ev.kind with
    | GKind.Genesis => some true
    | GKind.Regular ps =>
      match round_of g event_hash, round_of g ps.self_parent with
      | some r1, some r2 => some (decide (r1 > r2))
      | _, _ => none

/-- The byte-and-bit arithmetic of the coin-round branch of
`Graph::is_famous_witness`: the bit at index `len*8/2 mod 8` of the byte
at index `(len*8/2) / 8` of the given digest bytes; `none` is the index
panic on an empty digest. -/
def middle_bit_of_bytes (y_sig : List Nat) : Option Bool :=
  let middle_bit_index := y_sig.length * 8 / 2
  let middle_byte_index := middle_bit_index / 8
  match y_sig.get? middle_byte_index with
  | none => none
  | some middle_byte =>
    let bit_index := middle_bit_index % 8
    some (decide ((middle_byte >>> bit_index) &&& 1 ≠ 0))

/-- The vote-counting fold of `Graph::is_famous_witness`: the yes/no
tally of the previous round's recorded votes over the strongly seen
witnesses; a missing vote is counted as neither (the source's `None`
branch). -/
def vote_tally (prev_round_votes : List (GHash × Bool)) :
    List GHash → Nat × Nat → Nat × Nat
  | [], t => t
  | h :: rest, (yes, no) =>
    match lookupA prev_round_votes h with
    | some true => vote_tally prev_round_votes rest (yes + 1, no)
    | some false => vote_tally prev_round_votes rest (yes, no + 1)
    | none => vote_tally prev_round_votes rest (yes, no)

/-- The set `s` of `Graph::is_famous_witness`: the members of the
previous round that are witnesses and are strongly seen by the voter. -/
def strongly_seen_witnesses {P : Type} (g : Graph P) (y_hash : GHash) :
    List GHash → Option (List GHash)
  | [] => some []
  | h :: rest =>
    if (lookupA g.witnesses h).isSome then
      match strongly_see g y_hash h with
      | none => none
      | some b =>
        match strongly_seen_witnesses g y_hash rest with
        | none => none
        | some l => some (if b then h :: l else l)
    else strongly_seen_witnesses g y_hash rest

/-- The body of the voter loop of `Graph::is_famous_witness` for one
voter `y_hash` at distance `d`: tally the previous round's votes over the
strongly seen witnesses, set `v` to the majority (ties yes) and `t` to
the larger count; in a normal round a supermajority returns the decision
(`Sum.inl` — the source returns `Yes` unconditionally there) and
otherwise `v` is recorded; in a coin round a supermajority records `v`
and otherwise the middle bit of the voter's own stored hash is
recorded. -/
def fame_vote {P : Type} (g : Graph P) (n d : Nat)
    (prev_round_votes : List (GHash × Bool)) (voter_round : Nat) (y_hash : GHash) :
    Option (Sum WitnessFamousness Bool) :=
  match g.round_index.get? (voter_round - 1) with
  | none => none
  | some prev_idx =>
    match strongly_seen_witnesses g y_hash prev_idx with
    | none => none
    | some s =>
      let tallied := vote_tally prev_round_votes s (0, 0)
      let votes_for := tallied.1
      let votes_against := tallied.2
      let v := decide (votes_for ≥ votes_against)
      let t := max votes_for votes_against
      if d % g.coin_frequency > 0 then
        if t > 2 * n / 3 then some (Sum.inl WitnessFamousness.Yes)
        else some (Sum.inr v)
      else
        if t > 2 * n / 3 then some (Sum.inr v)
        else
          match lookupA g.all_events y_hash with
          | none => none
          | some ev => (middle_bit_of_bytes ev.hash).map Sum.inr

/-- The voter loop of `Graph::is_famous_witness` over one round: visits
the round's witnesses in order, short-circuits on a decision, and
otherwise accumulates the round's recorded votes. -/
def process_round {P : Type} (g : Graph P) (n d voter_round : Nat)
    (prev_round_votes : List (GHash × Bool)) :
    List GHash → List (GHash × Bool) → Option (Sum WitnessFamousness (List (GHash × Bool)))
  | [], votes => some (Sum.inr votes)
  | y :: rest, votes =>
    match fame_vote g n d prev_round_votes voter_round y with
    | none => none
    | some (Sum.inl f) => some (Sum.inl f)
    | some (Sum.inr b) =>
      process_round g n d voter_round prev_round_votes rest (insertA votes y b)

/-- The election loop of `Graph::is_famous_witness` over the rounds from
distance `d = 2` on: each round's witnesses vote on the previous round's
votes; exhausting the rounds yields `Undecided`. -/
def election_rounds {P : Type} (g : Graph P) (n r : Nat) :
    Nat → List (List GHash) → List (GHash × Bool) → Option WitnessFamousness
  | _, [], _ => some WitnessFamousness.Undecided
  | d, this_round_index :: rest, prev_round_votes =>
    let voter_round := r + d
    match process_round g n d voter_round prev_round_votes
            (this_round_index.filter (fun e => (lookupA g.witnesses e).isSome)) [] with
    | none => none
    | some (Sum.inl f) => some f
    | some (Sum.inr votes) => election_rounds g n r (d + 1) rest votes

/-- The first election round of `Graph::is_famous_witness`: every member
of `rounds[r+1]` votes `see(y, X)`. -/
def first_round_votes {P : Type} (g : Graph P) (event_hash : GHash) :
    List GHash → List (GHash × Bool) → Option (List (GHash × Bool))
  | [], m => some m
  | y :: rest, m =>
    match see g y event_hash with
    | none => none
    | some b => first_round_votes g event_hash rest (insertA m y b)

/-- `Graph::is_famous_witness`: errors with `NotWitness` on a
non-witness, otherwise runs the virtual election; a missing round
`r + 1`, or a round list too short for distance 2, yields `Undecided`. -/
def is_famous_witness {P : Type} (g : Graph P) (event_hash : GHash) :
    Option (Except NotWitness WitnessFamousness) :=
  match determine_witness g event_hash with
  | none => none
  | some false => some (Except.error {})
  | some true =>
    match round_of g event_hash with
    | none => none
    | some r =>
      match g.round_index.get? (r + 1) with
      | none => some (Except.ok WitnessFamousness.Undecided)
      | some this_round_index =>
        match first_round_votes g event_hash this_round_index [] with
        | none => none
        | some prev_round_votes =>
          let n := members_count g
          if g.round_index.length < r + 2 then some (Except.ok WitnessFamousness.Undecided)
          else
            match election_rounds g n r 2 (g.round_index.drop (r + 2)) prev_round_votes with
            | none => none
            | some f => some (Except.ok f)

/-- `Graph::push_node`: verification first (building the event, the
duplicate check, the per-kind checks), then the parent-pointer updates,
the insertion, the round computation with the round-index update (the
source inserts at the last index, not at `r`, when `r` is not a new
round), and the witness registration. `none` embeds the panics
(`expect`, `panic!`). -/
def push_node {P : Type} [DecidableEq P] (hashFn : P → GKind → PeerId → GHash)
    (g : Graph P) (payload : P) (node_type : PushKind) (author : PeerId) :
    Option (Except PushError (GHash × Graph P)) :=
  match
    (match node_type with
     | PushKind.Genesis => Except.ok (event_new hashFn payload GKind.Genesis author)
     | PushKind.Regular other_parent =>
       match lookupA g.peer_index author with
       | none => Except.error (PushError.PeerNotFound author)
       | some entry =>
         Except.ok (event_new hashFn payload
           (GKind.Regular { self_parent := entry.latest_event
                            other_parent := other_parent }) author)) with
  | Except.error e => some (Except.error e)
  | Except.ok new_node =>
    if (lookupA g.all_events new_node.hash).isSome then
      some (Except.error (PushError.NodeAlreadyExists new_node.hash))
    else
      match
        (match new_node.kind with
         | GKind.Genesis =>
           if (lookupA g.peer_index author).isSome then
             Except.error PushError.GenesisAlreadyExists
           else
             Except.ok { g with
               peer_index := insertA g.peer_index author
                 (PeerIndexEntry.new new_node.hash) }
         | GKind.Regular ps =>
           if (lookupA g.all_events ps.self_parent).isNone then
             Except.error (PushError.NoParent ps.self_parent)
           else if (lookupA g.all_events ps.other_parent).isNone then
             Except.error (PushError.NoParent ps.other_parent)
           else
             match lookupA g.all_events ps.self_parent with
             | none => Except.error (PushError.NoParent ps.self_parent)
             | some self_parent_node =>
               if self_parent_node.author ≠ author then
                 Except.error (PushError.IncorrectAuthor self_parent_node.author author)
               else
                 match self_parent_node.children.self_child with
                 | some existing_child =>
                   Except.error (PushError.SelfChildAlreadyExists existing_child)
                 | none =>
                   match lookupA g.peer_index author with
                   | none => Except.error (PushError.PeerNotFound author)
                   | some author_index =>
                     let g1 := { g with
                       all_events := updateA g.all_events ps.self_parent
                         (fun e => { e with children :=
                           { e.children with self_child := some new_node.hash } }) }
                     let g2 := { g1 with
                       all_events := updateA g1.all_events ps.other_parent
                         (fun e => { e with children :=
                           { e.children with other_children :=
                             e.children.other_children ++ [new_node.hash] } }) }
                     Except.ok { g2 with
                       peer_index := insertA g2.peer_index author
                         (author_index.add_latest new_node.hash).2 }) with
      | Except.error e => some (Except.error e)
      | Except.ok g3 =>
        let hash := new_node.hash
        let g4 := { g3 with all_events := insertA g3.all_events hash new_node }
        let last_idx := g4.round_index.length - 1
        match determine_round g4 hash with
        | none => none
        | some r =>
          let g5 := { g4 with round_of := insertA g4.round_of hash r }
          let g6 :=
            if r > last_idx then
              { g5 with round_index := g5.round_index ++ [[hash]] }
            else
              { g5 with round_index :=
                  g5.round_index.set last_idx (insertS (g5.round_index.getD last_idx []) hash) }
          match determine_witness g6 hash with
          | none => none
          | some w =>
            if w then
              some (Except.ok (hash,
                { g6 with witnesses := insertA g6.witnesses hash WitnessFamousness.Undecided }))
            else
              some (Except.ok (hash, g6))

/-- `Graph::new`: the empty state with one empty round, then the own
genesis pushed (the source `expect`s it to succeed). -/
def graph_new {P : Type} [DecidableEq P] (hashFn : P → GKind → PeerId → GHash)
    (self_id : PeerId) (genesis_payload : P) (coin_frequency : Nat) :
    Option (Graph P) :=
  let g0 : Graph P :=
    { all_events := []
      peer_index := []
      round_index := [[]]
      witnesses := []
      round_of := []
      self_id := self_id
      coin_frequency := coin_frequency }
  match push_node hashFn g0 genesis_payload PushKind.Genesis self_id with
  | some (Except.ok (_, g)) => some g
  | _ => none

/-- The round `r` the source computes for a parent whose own round is
already settled: `0` for a genesis, the cache for a cached regular event
(`determine_round` consults the cache after the kind match). -/
def parent_round {P : Type} (g : Graph P) (p : GHash) : Option RoundNum :=
  match lookupA g.all_events p with
  | none => none
  | some e =>
    match e.kind with
    | GKind.Genesis => some 0
    | GKind.Regular _ => lookupA g.round_of p

/-- The set of §4.F of the specification, stated in its words: the
distinct authors of the witnesses among the given round members that the
event strongly sees. -/
def strongly_seen_witness_authors {P : Type} (g : Graph P) (event_hash : GHash)
    (round : List (GEvent P)) : Finset PeerId :=
  ((round.filter (fun e =>
      (lookupA g.witnesses e.hash).isSome &&
        decide (strongly_see g event_hash e.hash = some true))).map
    (fun e => e.author)).toFinset

section ConcreteInstances

/-- An injective encoding of an event kind into digest bytes, used as the
concrete stand-in for the Blake2b digest in the executable scenarios. -/
def enc_kind : GKind → List Nat
  | GKind.Genesis => [0]
  | GKind.Regular ps => 1 :: ps.self_parent.length :: (ps.self_parent ++ ps.other_parent)

/-- The concrete hash function of the executable scenarios: payload,
author, then the encoded kind. -/
def hash_fn : Nat → GKind → PeerId → GHash :=
  fun p k a => p :: a :: enc_kind k

/-- Runs one `push_node` and keeps the state, demanding success. -/
def push_ok (g : Option (Graph Nat)) (payload : Nat) (k : PushKind) (author : PeerId) :
    Option (Graph Nat) :=
  match g with
  | none => none
  | some g =>
    match push_node hash_fn g payload k author with
    | some (Except.ok (_, g')) => some g'
    | _ => none

/-- Genesis of peer 0 in the round-misplacement scenario. -/
def c3_hP0 : GHash := hash_fn 0 GKind.Genesis 0

/-- Genesis of peer 1 in the round-misplacement scenario. -/
def c3_hQ0 : GHash := hash_fn 0 GKind.Genesis 1

/-- First regular event of peer 0 (round 0). -/
def c3_hp1 : GHash := hash_fn 1 (GKind.Regular ⟨c3_hP0, c3_hQ0⟩) 0

/-- First regular event of peer 1; it strongly sees both geneses and
opens round 1. -/
def c3_hq1 : GHash := hash_fn 2 (GKind.Regular ⟨c3_hQ0, c3_hp1⟩) 1

/-- Second regular event of peer 0; its round is 0 but it is pushed after
round 1 exists, so the source files it under `round_index[1]`. -/
def c3_hp2 : GHash := hash_fn 3 (GKind.Regular ⟨c3_hp1, c3_hP0⟩) 0

/-- Two peers, five events, pushed through `push_node`: the genesis of
peer 0 (via `Graph::new`), the genesis of peer 1, then `p1`, `q1`, `p2`
as above. -/
def c3_state : Option (Graph Nat) :=
  push_ok (push_ok (push_ok (push_ok (graph_new hash_fn 0 0 10) 0 PushKind.Genesis 1)
    1 (PushKind.Regular c3_hQ0) 0) 2 (PushKind.Regular c3_hp1) 1)
    3 (PushKind.Regular c3_hP0) 0

/-- Genesis of peer 0 in the duplicate-yield scenario. -/
def c5_hG1 : GHash := hash_fn 100 GKind.Genesis 0

/-- Genesis of peer 1 in the duplicate-yield scenario. -/
def c5_hG2 : GHash := hash_fn 100 GKind.Genesis 1

/-- Peer 0's event `A` (self parent `G1`, other parent `G2`). -/
def c5_hA : GHash := hash_fn 101 (GKind.Regular ⟨c5_hG1, c5_hG2⟩) 0

/-- Peer 1's event `X` (self parent `G2`, other parent `A`). -/
def c5_hX : GHash := hash_fn 102 (GKind.Regular ⟨c5_hG2, c5_hA⟩) 1

/-- Peer 0's event `E` (self parent `A`, other parent `X`). -/
def c5_hE : GHash := hash_fn 103 (GKind.Regular ⟨c5_hA, c5_hX⟩) 0

/-- Two peers, five events, pushed through `push_node`; iterating the
ancestors of `E` yields `G1` and `A` twice because the chain walk only
marks the argument hash visited. -/
def c5_state : Option (Graph Nat) :=
  push_ok (push_ok (push_ok (push_ok (graph_new hash_fn 0 100 10) 100 PushKind.Genesis 1)
    101 (PushKind.Regular c5_hG2) 0) 102 (PushKind.Regular c5_hA) 1)
    103 (PushKind.Regular c5_hX) 0

/-- A one-peer state in which the round-1 member does not see the
genesis, so the round-2 voter's tally is no-majority with a supermajority
(`n = 1` makes the threshold `0`). -/
def c1_graph : Graph Nat :=
  { all_events :=
      [([10], { hash := [10], payload := 0, kind := GKind.Genesis, author := 0,
                children := { self_child := none, other_children := [] } }),
       ([11], { hash := [11], payload := 0, kind := GKind.Genesis, author := 0,
                children := { self_child := none, other_children := [] } }),
       ([12], { hash := [12], payload := 0,
                kind := GKind.Regular { self_parent := [11], other_parent := [11] },
                author := 0,
                children := { self_child := none, other_children := [] } })]
    peer_index := [(0, { genesis := [10], latest_event := [12], forking := false })]
    round_index := [[[10]], [[11]], [[12]]]
    witnesses := [([10], WitnessFamousness.Undecided), ([11], WitnessFamousness.Undecided),
                  ([12], WitnessFamousness.Undecided)]
    round_of := [([10], 0), ([11], 1), ([12], 2)]
    self_id := 0
    coin_frequency := 10 }

/-- The digest of the witness whose fame is asked in the `c1` scenario. -/
def c1_hX : GHash := [10]

/-- The round-1 member voting `no` in the `c1` scenario. -/
def c1_h1 : GHash := [11]

/-- The round-2 voter in the `c1` scenario. -/
def c1_hy2 : GHash := [12]

/-- A 64-byte digest whose middle bit (byte 32, bit 0) is `0`. -/
def c7_hX : GHash := List.replicate 64 0

/-- A 64-byte digest whose middle bit (byte 32, bit 0) is `1`. -/
def c7_hy : GHash := List.replicate 32 0 ++ 1 :: List.replicate 31 0

/-- A two-event state for the coin-round scenario: the decided witness
`X` and the voter `y` with different middle bits, a coin frequency of 2,
and an empty previous round so that the tally has no supermajority. -/
def c7_graph : Graph Nat :=
  { all_events :=
      [(c7_hX, { hash := c7_hX, payload := 0, kind := GKind.Genesis, author := 0,
                 children := { self_child := none, other_children := [] } }),
       (c7_hy, { hash := c7_hy, payload := 0, kind := GKind.Genesis, author := 0,
                 children := { self_child := none, other_children := [] } })]
    peer_index := [(0, { genesis := c7_hX, latest_event := c7_hy, forking := false })]
    round_index := [[], []]
    witnesses := []
    round_of := []
    self_id := 0
    coin_frequency := 2 }

/-- A state whose store holds peer 0's genesis with a self child already
recorded, so a regular push by peer 0 hits the fork branch. -/
def c4_graph : Graph Nat :=
  { all_events :=
      [(c3_hP0, { hash := c3_hP0, payload := 0, kind := GKind.Genesis, author := 0,
                  children := { self_child := some [9], other_children := [] } })]
    peer_index := [(0, { genesis := c3_hP0, latest_event := c3_hP0, forking := false })]
    round_index := [[c3_hP0]]
    witnesses := [(c3_hP0, WitnessFamousness.Undecided)]
    round_of := [(c3_hP0, 0)]
    self_id := 0
    coin_frequency := 10 }

/-- An empty store for the unknown-hash queries. -/
def c8_graph : Graph Nat :=
  { all_events := []
    peer_index := []
    round_index := [[]]
    witnesses := []
    round_of := []
    self_id := 0
    coin_frequency := 10 }

/-- A two-peer state with both geneses in round 0 and one uncached
regular event, instantiating the round-computation theorem. -/
def c2_graph : Graph Nat :=
  { all_events :=
      [([1], { hash := [1], payload := 0, kind := GKind.Genesis, author := 0,
               children := { self_child := some [3], other_children := [] } }),
       ([2], { hash := [2], payload := 0, kind := GKind.Genesis, author := 1,
               children := { self_child := none, other_children := [[3]] } }),
       ([3], { hash := [3], payload := 0,
               kind := GKind.Regular { self_parent := [1], other_parent := [2] },
               author := 0,
               children := { self_child := none, other_children := [] } })]
    peer_index := [(0, { genesis := [1], latest_event := [3], forking := false }),
                   (1, { genesis := [2], latest_event := [2], forking := false })]
    round_index := [[[1], [2]]]
    witnesses := [([1], WitnessFamousness.Undecided), ([2], WitnessFamousness.Undecided)]
    round_of := [([1], 0), ([2], 0)]
    self_id := 0
    coin_frequency := 10 }

end ConcreteInstances

end Hashgraph

namespace AlgEvent

/-- The `Hash` of `src/algorithm/event.rs`: the 64 digest bytes and the
cached 4-byte compact fingerprint (bytes as naturals below 256 in the
source; no operation here overflows a byte). -/
structure Hash where
  inner : List Nat
  compact : List Nat
deriving DecidableEq, Repr

/-- `Hash::xor_bytes`: the XOR fold of a byte slice. -/
def xor_bytes (slice : List Nat) : Nat :=
  slice.foldl (fun result b => result ^^^ b) 0

/-- `Hash::calc_compact`: split the digest at 32, each half at 16, and
XOR-fold the four quarters. -/
def calc_compact (inner : List Nat) : List Nat :=
  let a0 := inner.take 32
  let c0 := inner.drop 32
  [xor_bytes (a0.take 16), xor_bytes (a0.drop 16),
   xor_bytes (c0.take 16), xor_bytes (c0.drop 16)]

/-- `Hash::from_array`: stores the bytes and recomputes the compact
fingerprint. -/
def Hash.from_array (inner : List Nat) : Hash :=
  { inner := inner, compact := calc_compact inner }

/-- `PartialEq for Hash`: equality of the inner bytes only. -/
def hash_eq (a b : Hash) : Bool :=
  decide (a.inner = b.inner)

/-- The ordering of Rust byte slices: element-wise comparison, ties
broken by length (the inners compared in the source are equal-length
arrays, where the length tie-break never fires). -/
def bytes_cmp : List Nat → List Nat → Ordering
  | [], [] => Ordering.eq
  | [], _ :: _ => Ordering.lt
  | _ :: _, [] => Ordering.gt
  | a :: as, b :: bs =>
    match compare a b with
    | Ordering.eq => bytes_cmp as bs
    | o => o

/-- `Ord for Hash`: `self.inner.cmp(&other.inner)`. -/
def hash_cmp (a b : Hash) : Ordering :=
  bytes_cmp a.inner b.inner

/-- `BitXor for &Hash` (by reference): XOR the bytes and rebuild through
`from_array`, which recomputes the compact fingerprint. -/
def hash_bitxor_ref (a b : Hash) : Hash :=
  Hash.from_array (List.zipWith (fun x y => x ^^^ y) a.inner b.inner)

/-- `BitXor<&Hash> for Hash` (by value): XOR the bytes in place and keep
`self` otherwise untouched, so the cached compact fingerprint is *not*
recomputed; `none` is the index panic when `rhs` is shorter than
`self`. -/
def hash_bitxor_val (a b : Hash) : Option Hash :=
  if a.inner.length ≤ b.inner.length then
    some { inner := List.zipWith (fun x y => x ^^^ y) a.inner b.inner
           compact := a.compact }
  else none

/-- `Signature(pub Hash)` of `src/algorithm/event.rs`. -/
structure Signature where
  val : Hash
deriving DecidableEq, Repr

/-- `Parents` of `src/algorithm/event.rs`. -/
structure Parents where
  self_parent : Hash
  other_parent : Hash
deriving DecidableEq, Repr

/-- `Kind` of `src/algorithm/event.rs`: a genesis carries the genesis
payload. -/
inductive Kind (TG : Type) : Type
  | Genesis : TG → Kind TG
  | Regular : Parents → Kind TG
deriving DecidableEq

/-- `EventFields` of `src/algorithm/event.rs`. -/
structure EventFields (TP TG TI : Type) where
  user_payload : TP
  kind : Kind TG
  author : TI
  timestamp : Nat
deriving DecidableEq

/-- `UnsignedEvent` of `src/algorithm/event.rs`: the fields and their
canonical digest. -/
structure UnsignedEvent (TP TG TI : Type) where
  fields : EventFields TP TG TI
  hash : Hash
deriving DecidableEq

/-- `SignedEvent` of `src/algorithm/event.rs`. -/
structure SignedEvent (TP TG TI : Type) where
  unsigned : UnsignedEvent TP TG TI
  signature : Signature
deriving DecidableEq

/-- `WithSignatureCreationError` of `src/algorithm/event.rs`. -/
inductive WithSignatureCreationError : Type
  | DigestError : WithSignatureCreationError
  | InvalidSignature : WithSignatureCreationError
deriving DecidableEq, Repr

/-- `SignedEvent::with_signature`: verify the stored digest against the
author, and either wrap the unsigned event with the signature or fail
with `InvalidSignature`. -/
def with_signature {TP TG TI : Type} (unsigned_event : UnsignedEvent TP TG TI)
    (signature : Signature) (verify_signature : Hash → Signature → TI → Bool) :
    Except WithSignatureCreationError (SignedEvent TP TG TI) :=
  let hash := unsigned_event.hash
  if verify_signature hash signature unsigned_event.fields.author then
    Except.ok { unsigned := unsigned_event, signature := signature }
  else
    Except.error WithSignatureCreationError.InvalidSignature

end AlgEvent

namespace Sync

/-- `Modelled from the spec:` the `Directed` capability of the missing
`src/common` module, as §4.H describes it: a directed graph with
`in_neighbors` and `out_neighbors` operators; each node carries its
in-list and its out-list. For the event graph the out-neighbors of a node
are its children and the in-neighbors its parents. -/
structure DGraph (H : Type) where
  adj : List (H × List H × List H)

/-- `Directed::in_neighbors`: `none` when the node is unknown. -/
def in_neighbors {H : Type} [DecidableEq H] (g : DGraph H) (h : H) : Option (List H) :=
  (Hashgraph.lookupA g.adj h).map (fun v => v.1)

/-- `Directed::out_neighbors`: `none` when the node is unknown. -/
def out_neighbors {H : Type} [DecidableEq H] (g : DGraph H) (h : H) : Option (List H) :=
  (Hashgraph.lookupA g.adj h).map (fun v => v.2)

/-- `Modelled from the spec:` `Reversable::reversed` of the missing
`src/common` module — the same graph with every edge flipped, so the in-
and out-lists swap. -/
def reversed {H : Type} (g : DGraph H) : DGraph H :=
  { adj := g.adj.map (fun x => (x.1, x.2.2, x.2.1)) }

/-- The error type of `src/algorithm/datastructure/sync/mod.rs`. -/
inductive SyncError (H : Type) : Type
  | IncorrectTip : H → SyncError H
  | UnknownEvent : H → SyncError H
deriving DecidableEq, Repr

/-- `Jobs` of `src/algorithm/datastructure/sync/mod.rs`: the linear list
of events for the peer. -/
structure Jobs (E : Type) where
  inner : List E
deriving DecidableEq, Repr

/-- The source validation pass over the provided tips (the `filter_map`
collected into a `Result`): an unknown tip fails with `IncorrectTip`, a
tip with reversed-in-neighbors (original children) is skipped, the rest
are kept in order. -/
def validate_tips {H : Type} [DecidableEq H] (rg : DGraph H) :
    List H → Except (SyncError H) (List H)
  | [] => Except.ok []
  | h :: t =>
    match in_neighbors rg h with
    | none => Except.error (SyncError.IncorrectTip h)
    | some ins =>
      if ins.isEmpty then
        match validate_tips rg t with
        | Except.error e => Except.error e
        | Except.ok l => Except.ok (h :: l)
      else validate_tips rg t

/-- The state of the BFS loop of `Jobs::generate`: the queue, the
scheduled set, the visited set, and the emitted order. -/
structure LoopState (H : Type) where
  to_visit : List H
  to_visit_set : Finset H
  visited : Finset H
  sorted : List H

/-- The neighbor loop of `Jobs::generate` for one popped node `next`:
each reversed-out neighbor (an original parent) is skipped when already
scheduled or known to the peer, errors with `UnknownEvent next` when its
reversed-in list is missing, and is scheduled exactly when all its
reversed-in neighbors (original children) are visited and it is not
itself visited. Returns the grown scheduled set and the appended queue
entries in order. -/
def process_neighbors {H : Type} [DecidableEq H] (rg : DGraph H) (knows : H → Bool)
    (next : H) (visited : Finset H) :
    List H → Finset H → Except (SyncError H) (Finset H × List H)
  | [], tvs => Except.ok (tvs, [])
  | m :: ms, tvs =>
    if m ∈ tvs then process_neighbors rg knows next visited ms tvs
    else if knows m then process_neighbors rg knows next visited ms tvs
    else
      match in_neighbors rg m with
      | none => Except.error (SyncError.UnknownEvent next)
      | some ins =>
        if ins.all (fun i => decide (i ∈ visited)) then
          if m ∈ visited then process_neighbors rg knows next visited ms tvs
          else
            match process_neighbors rg knows next visited ms (insert m tvs) with
            | Except.error e => Except.error e
            | Except.ok (tvs', adds) => Except.ok (tvs', m :: adds)
        else process_neighbors rg knows next visited ms tvs

/-- The `while let` loop of `Jobs::generate`: pop the queue front, skip
if visited, otherwise mark visited, process the neighbors and append the
node to the emitted order. Fuel guards the loop; `generate` passes a
bound that always suffices. -/
def sync_loop {H : Type} [DecidableEq H] (rg : DGraph H) (knows : H → Bool) :
    Nat → LoopState H → Option (Except (SyncError H) (List H))
  | 0, _ => none
  | fuel + 1, st =>
    match st.to_visit with
    | [] => some (Except.ok st.sorted)
    | next :: rest =>
      if next ∈ st.visited then
        sync_loop rg knows fuel { st with to_visit := rest }
      else
        let visited' := insert next st.visited
        match out_neighbors rg next with
        | none => some (Except.error (SyncError.UnknownEvent next))
        | some nbrs =>
          match process_neighbors rg knows next visited' nbrs st.to_visit_set with
          | Except.error e => some (Except.error e)
          | Except.ok (tvs', adds) =>
            sync_loop rg knows fuel
              { to_visit := rest ++ adds
                to_visit_set := tvs'
                visited := visited'
                sorted := st.sorted ++ [next] }

/-- The final resolution pass of `Jobs::generate`: each hash to its
event, a missing one failing with `UnknownEvent` of that hash. -/
def resolve_events {H E : Type} (get_event : H → Option E) :
    List H → Except (SyncError H) (List E)
  | [] => Except.ok []
  | h :: t =>
    match get_event h with
    | none => Except.error (SyncError.UnknownEvent h)
    | some e =>
      match resolve_events get_event t with
      | Except.error er => Except.error er
      | Except.ok l => Except.ok (e :: l)

/-- `Jobs::generate`: validate the tips against the reversed state, drop
the tips the peer knows, BFS over the reversed graph scheduling a parent
only once all its children are visited, reverse the emitted order, and
resolve the hashes to events. The fuel passed to the loop — the number of
unknown sources plus the total length of the reversed graph's out-lists
plus one — always suffices, since every iteration pops one queue entry
and every enqueue adds a fresh member of an out-list to the scheduled
set. -/
def generate {H E : Type} [DecidableEq H] (known_state : DGraph H)
    (peer_knows_event : H → Bool) (known_state_tips : List H)
    (get_event : H → Option E) : Option (Except (SyncError H) (Jobs E)) :=
  let reversed_state := reversed known_state
  match validate_tips reversed_state known_state_tips with
  | Except.error e => some (Except.error e)
  | Except.ok sources =>
    let unknown_sources := sources.filter (fun h => ! peer_knows_event h)
    let fuel := unknown_sources.length +
      (reversed_state.adj.map (fun x => x.2.2.length)).sum + 1
    match sync_loop reversed_state peer_knows_event fuel
        { to_visit := unknown_sources, to_visit_set := ∅, visited := ∅, sorted := [] } with
    | none => none
    | some (Except.error e) => some (Except.error e)
    | some (Except.ok sorted) =>
      match resolve_events get_event sorted.reverse with
      | Except.error e => some (Except.error e)
      | Except.ok jobs => some (Except.ok { inner := jobs })

/-- A node is in the graph. -/
def memG {H : Type} [DecidableEq H] (K : DGraph H) (x : H) : Prop :=
  (Hashgraph.lookupA K.adj x).isSome = true

/-- The children of a node (its out-neighbors in the original graph). -/
def childrenOf {H : Type} [DecidableEq H] (K : DGraph H) (x : H) : List H :=
  match Hashgraph.lookupA K.adj x with
  | some v => v.2
  | none => []

/-- The parents of a node (its in-neighbors in the original graph). -/
def parentsOf {H : Type} [DecidableEq H] (K : DGraph H) (x : H) : List H :=
  match Hashgraph.lookupA K.adj x with
  | some v => v.1
  | none => []

/-- Reachability upwards through parents: the ancestors-or-self of a
node, as the spec's "events reachable from `local_tips`". -/
def ReachUp {H : Type} [DecidableEq H] (K : DGraph H) : H → H → Prop :=
  Relation.ReflTransGen (fun a b => b ∈ parentsOf K a)

/-- Every element of every out-list of a graph; the scheduled set of the
BFS only ever holds members of this finite universe. -/
def outUniverse {H : Type} [DecidableEq H] (g : DGraph H) : Finset H :=
  (g.adj.map (fun x => x.2.2)).flatten.toFinset

/-- A three-event diamond: event `0` is the parent of the two childless
events `1` and `2` (both tips). -/
def c6_graph : DGraph Nat :=
  { adj := [(0, ([], [1, 2])), (1, ([0], [])), (2, ([0], []))] }

/-- A rank witnessing acyclicity of `c6_graph`. -/
def c6_rank : Nat → Nat :=
  fun h => if h = 0 then 1 else 0

/-- Membership in the graph is decidable. -/
instance {H : Type} [DecidableEq H] (K : DGraph H) (x : H) : Decidable (memG K x) := by
  unfold memG
  infer_instance

/-- The invariant of the BFS loop of `Jobs::generate`, over the original
graph `K`, the peer knowledge and the provided tips. -/
structure LoopInv {H : Type} [DecidableEq H] (K : DGraph H) (knows : H → Bool)
    (tips : List H) (st : LoopState H) : Prop where
  nodup : st.sorted.Nodup
  vis_eq : st.visited = st.sorted.toFinset
  sound : ∀ x ∈ st.sorted, memG K x ∧ knows x = false ∧ ∃ t ∈ tips, ReachUp K t x
  topo : ∀ l1 x l2, st.sorted = l1 ++ x :: l2 → ∀ c ∈ childrenOf K x, c ∈ l1
  queue_sound : ∀ x ∈ st.to_visit, memG K x ∧ knows x = false ∧
    (∃ t ∈ tips, ReachUp K t x) ∧ ∀ c ∈ childrenOf K x, c ∈ st.visited
  saturated : ∀ x, memG K x → knows x = false →
    (∀ c ∈ childrenOf K x, c ∈ st.visited) → x ∈ st.visited ∨ x ∈ st.to_visit
  tvs_sub : ∀ x ∈ st.to_visit_set, x ∈ st.visited ∨ x ∈ st.to_visit
  tvs_univ : st.to_visit_set ⊆ outUniverse (reversed K)

end Sync

namespace AlgEvent

/-- A concrete unsigned event instantiating the signature theorem. -/
def c9_unsigned : UnsignedEvent Nat Nat Nat :=
  { fields := { user_payload := 5, kind := Kind.Genesis 0, author := 7, timestamp := 3 }
    hash := Hash.from_array (List.replicate 64 1) }

/-- A concrete signature instantiating the signature theorem. -/
def c9_signature : Signature :=
  { val := Hash.from_array (List.replicate 64 2) }

end AlgEvent

deriving instance DecidableEq for Except

namespace Hashgraph

/-- C1. In the `c1_graph` state the witness `[10]` is decided at voter
distance 2, a normal round (`2 mod 10 > 0`), where the single strongly
seen prior-round witness voted `no` — the tally is `(yes, no) = (0, 1)`,
so the majority vote `v` is `false` and `t = 1` exceeds `2n/3 = 0` — yet
`is_famous_witness` returns `Yes`: the source decides `Yes` regardless of
`v`, so the claim that it returns the majority vote (No when `v` is
false) fails on the code. -/
theorem c1_normal_round_no_majority_still_decides_yes :
    is_famous_witness c1_graph c1_hX = some (Except.ok WitnessFamousness.Yes) ∧
    see c1_graph c1_h1 c1_hX = some false ∧
    (strongly_seen_witnesses c1_graph c1_hy2 [c1_h1]).map
      (fun s => vote_tally [(c1_h1, false)] s (0, 0)) = some (0, 1) ∧
    2 % c1_graph.coin_frequency > 0 ∧
    1 > 2 * members_count c1_graph / 3 := by
  refine ⟨by decide, by decide, by decide, by decide, by decide⟩

/-- C3. After the five pushes of `c3_state`, event `p2` has cached round
`0` but the round index files it under round `1` (the source inserts at
the last index instead of at `r`), so `rounds[round_of(p2)]` does not
contain `p2`. -/
theorem c3_round_index_misplaced :
    c3_state.map (fun g =>
      (lookupA g.round_of c3_hp2,
       decide (c3_hp2 ∈ g.round_index.getD 1 []),
       decide (c3_hp2 ∈ g.round_index.getD 0 []))) =
      some (some 0, true, false) := by
  decide

/-- C5. Iterating the ancestors of `E` in `c5_state` yields the sequence
`G1, A, G2, E, X, G1, A`: the iterator terminates but yields `G1` and `A`
twice, refuting the at-most-once part of the claim (the chain walk never
marks the chain members visited, only its argument). -/
theorem c5_ancestor_yielded_twice :
    c5_state.map (fun g => (ancestors_list g c5_hE).map (fun l => l.map GEvent.hash)) =
      some (some [c5_hG1, c5_hA, c5_hG2, c5_hE, c5_hX, c5_hG1, c5_hA]) ∧
    c5_state.map (fun g =>
        (ancestors_list g c5_hE).map (fun l => (l.map GEvent.hash).count c5_hG1)) =
      some (some 2) := by
  refine ⟨by decide, by decide⟩

/-- C4 counterexample. Pushing a regular event for peer 0 on `c4_graph`,
whose latest event already has self child `[9]`, returns the
`SelfChildAlreadyExists` error: the event is not admitted and no hash is
returned, contrary to the claim. -/
theorem c4_fork_push_rejected_cex :
    push_node hash_fn c4_graph 0 (PushKind.Regular c3_hP0) 0 =
      some (Except.error (PushError.SelfChildAlreadyExists [9])) := by
  decide

/-- C4 amended. When the self parent (the author's latest event) already
has a self child, `push_node` rejects the regular event with
`SelfChildAlreadyExists` carrying that child; nothing is admitted and the
author is not marked forking. -/
theorem c4_fork_push_returns_self_child_error {P : Type} [DecidableEq P]
    (hashFn : P → GKind → PeerId → GHash) (g : Graph P) (payload : P)
    (other_parent : GHash) (author : PeerId) (entry : PeerIndexEntry)
    (sp_node op_node : GEvent P) (c : GHash)
    (hentry : lookupA g.peer_index author = some entry)
    (hnew : lookupA g.all_events
      (hashFn payload
        (GKind.Regular { self_parent := entry.latest_event, other_parent := other_parent })
        author) = none)
    (hsp : lookupA g.all_events entry.latest_event = some sp_node)
    (hop : lookupA g.all_events other_parent = some op_node)
    (hauth : sp_node.author = author)
    (hchild : sp_node.children.self_child = some c) :
    push_node hashFn g payload (PushKind.Regular other_parent) author =
      some (Except.error (PushError.SelfChildAlreadyExists c)) := by
  unfold push_node
  simp only [hentry, event_new, hnew, Option.isSome_none, Bool.false_eq_true, if_false,
    hsp, hop, Option.isNone_some, hauth, hchild, ne_eq, not_true_eq_false, if_neg]

/-- C4 witness: the amended theorem applied to `c4_graph`. -/
theorem c4_fork_push_returns_self_child_error_witness :
    push_node hash_fn c4_graph 0 (PushKind.Regular c3_hP0) 0 =
      some (Except.error (PushError.SelfChildAlreadyExists [9])) :=
  c4_fork_push_returns_self_child_error hash_fn c4_graph 0 c3_hP0 0
    { genesis := c3_hP0, latest_event := c3_hP0, forking := false }
    { hash := c3_hP0, payload := 0, kind := GKind.Genesis, author := 0,
      children := { self_child := some [9], other_children := [] } }
    { hash := c3_hP0, payload := 0, kind := GKind.Genesis, author := 0,
      children := { self_child := some [9], other_children := [] } }
    [9] (by decide) (by decide) (by decide) (by decide) (by decide) (by decide)

/-- C7 counterexample. In `c7_graph`, distance 2 is a coin round
(`2 mod 2 = 0`) and the tally over the empty witness set has no
supermajority, so the voter `y` records the coin bit — and that bit is
`true`, the middle bit of the voter's own hash, while the middle bit of
the decided witness `X`'s hash is `false`: the vote is not the middle bit
of `X`'s hash. -/
theorem c7_coin_vote_not_target_middle_bit_cex :
    fame_vote c7_graph 1 2 [] 2 c7_hy = some (Sum.inr true) ∧
    (lookupA c7_graph.all_events c7_hX).map (fun e => middle_bit_of_bytes e.hash) =
      some (some false) ∧
    2 % c7_graph.coin_frequency = 0 := by
  refine ⟨by decide, by decide, by decide⟩

/-- C7 amended. In a coin round (`d mod C = 0`) whose tally has no
supermajority, the voter records the middle bit of the voter's *own*
stored hash — the bit at index `(8·len)/2 mod 8` of byte
`((8·len)/2) / 8` of `Y`'s digest, not `X`'s. -/
theorem c7_coin_vote_is_voter_middle_bit {P : Type} (g : Graph P) (n d : Nat)
    (prev : List (GHash × Bool)) (voter_round : Nat) (y : GHash)
    (prev_idx s : List GHash) (ev : GEvent P) (b : Bool)
    (hidx : g.round_index.get? (voter_round - 1) = some prev_idx)
    (hs : strongly_seen_witnesses g y prev_idx = some s)
    (hcoin : d % g.coin_frequency = 0)
    (hmaj : max (vote_tally prev s (0, 0)).1 (vote_tally prev s (0, 0)).2 ≤ 2 * n / 3)
    (hev : lookupA g.all_events y = some ev)
    (hbit : middle_bit_of_bytes ev.hash = some b) :
    fame_vote g n d prev voter_round y = some (Sum.inr b) := by
  unfold fame_vote
  simp only [hidx, hs, hcoin, hev, hbit, gt_iff_lt, Nat.lt_irrefl, if_false,
    Option.map_some']
  rw [if_neg (Nat.not_lt.mpr hmaj)]

/-- C7 witness: the amended theorem applied to the `c7_graph` voter. -/
theorem c7_coin_vote_is_voter_middle_bit_witness :
    fame_vote c7_graph 1 2 [] 2 c7_hy = some (Sum.inr true) :=
  c7_coin_vote_is_voter_middle_bit c7_graph 1 2 [] 2 c7_hy [] []
    { hash := c7_hy, payload := 0, kind := GKind.Genesis, author := 0,
      children := { self_child := none, other_children := [] } }
    true (by decide) (by decide) (by decide) (by decide) (by decide) (by decide)

/-- `List.findIdx?` finds an index exactly when some member satisfies the
predicate. -/
theorem findIdx_isSome_iff {α : Type} (p : α → Bool) (l : List α) :
    (l.findIdx? p).isSome = true ↔ ∃ x ∈ l, p x = true := by
  rw [List.findIdx?_isSome, List.any_eq_true]

/-- C8 counterexample. On the empty store `c8_graph` the hash `[5]` is
unknown: the public `round_of` hits its `expect` and `ancestor` its
`unwrap` (both modelled as `none`), so neither returns a value or an
error — they panic, contrary to the claim. -/
theorem c8_unknown_hash_panics_cex :
    round_of c8_graph [5] = none ∧ ancestor c8_graph [5] [5] = none := by
  refine ⟨by decide, by decide⟩

/-- C8 amended. `round_of` produces a value exactly when the hash is in
the cache or in some round of the round index, and panics otherwise;
`ancestor` panics whenever either hash is absent from the store. -/
theorem c8_panic_conditions {P : Type} (g : Graph P) (h a b : GHash) :
    ((round_of g h).isSome = true ↔
      (lookupA g.round_of h).isSome = true ∨ ∃ rs ∈ g.round_index, h ∈ rs) ∧
    ((lookupA g.all_events a).isNone = true ∨ (lookupA g.all_events b).isNone = true →
      ancestor g a b = none) := by
  constructor
  · unfold round_of
    cases hc : lookupA g.round_of h with
    | some r => simp [hc]
    | none =>
      simp only [hc, Option.isSome_none, Bool.false_eq_true, false_or]
      rw [findIdx_isSome_iff]
      simp
  · intro hab
    unfold ancestor
    cases ha : lookupA g.all_events a with
    | none => rfl
    | some ea =>
      cases hb : lookupA g.all_events b with
      | none => rfl
      | some eb =>
        rw [ha, hb] at hab
        simp at hab

/-- C8 witness: the amended theorem applied to an absent hash of
`c1_graph`. -/
theorem c8_panic_conditions_witness :
    ancestor c1_graph [99] [99] = none :=
  (c8_panic_conditions c1_graph [99] [99] [99]).2 (Or.inl (by decide))

/-- One step of `determine_round` on a parent whose round is settled:
a genesis yields `0`, a cached regular event yields its cache, with any
fuel left for the step. -/
theorem determine_round_f_parent {P : Type} (g : Graph P) (p : GHash) (r : RoundNum)
    (hp : parent_round g p = some r) (fuel : Nat) :
    determine_round_f g (fuel + 1) p = some r := by
  unfold parent_round at hp
  unfold determine_round_f
  revert hp
  cases he : lookupA g.all_events p with
  | none => intro hp; cases hp
  | some e =>
    dsimp only
    cases hk : e.kind with
    | Genesis => intro hp; exact hp
    | Regular ps =>
      intro hp
      dsimp only at hp ⊢
      rw [hp]

/-- The author-collecting fold of `determine_round` computes the union
of the accumulator with the authors of the strongly seen members, when
every strong-see query on the list returns. -/
theorem witness_authors_fold_eq {P : Type} (g : Graph P) (h : GHash) :
    ∀ (l : List (GEvent P)) (s : Finset PeerId),
      (∀ e ∈ l, (strongly_see g h e.hash).isSome = true) →
      witness_authors_fold g h l s =
        some (s ∪ ((l.filter (fun e => decide (strongly_see g h e.hash = some true))).map
              (fun e => e.author)).toFinset)
  | [], s, _ => by simp [witness_authors_fold]
  | e :: t, s, htot => by
    obtain ⟨b, hb⟩ := Option.isSome_iff_exists.mp (htot e (by simp))
    have ht : ∀ x ∈ t, (strongly_see g h x.hash).isSome = true :=
      fun x hx => htot x (List.mem_cons_of_mem e hx)
    cases b with
    | true =>
      rw [List.filter_cons_of_pos (by simp [hb])]
      simp only [List.map_cons, List.toFinset_cons]
      unfold witness_authors_fold
      rw [hb]
      dsimp only
      rw [if_pos rfl]
      rw [witness_authors_fold_eq g h t (insert e.author s) ht]
      rw [Finset.insert_union, Finset.union_insert]
    | false =>
      rw [List.filter_cons_of_neg (by simp [hb])]
      unfold witness_authors_fold
      rw [hb]
      dsimp only
      rw [if_neg (by simp)]
      exact witness_authors_fold_eq g h t s ht

/-- C2. `determine_round` follows §4.F of the specification: a genesis
event is round `0`; an uncached regular event whose parents' rounds are
settled (`rs`, `ro`) gets round `r + 1`, `r = max rs ro`, exactly when
the distinct authors of the witnesses of `rounds[r]` (the event itself
excluded) that it strongly sees are more than `2n/3`, and round `r`
otherwise. -/
theorem c2_determine_round_follows_spec {P : Type} (g : Graph P) (event_hash : GHash)
    (ev : GEvent P)
    (hev : lookupA g.all_events event_hash = some ev) :
    (ev.kind = GKind.Genesis → determine_round g event_hash = some 0) ∧
    (∀ ps rs ro round_hashes round,
      ev.kind = GKind.Regular ps →
      lookupA g.round_of event_hash = none →
      parent_round g ps.self_parent = some rs →
      parent_round g ps.other_parent = some ro →
      g.round_index.get? (max rs ro) = some round_hashes →
      (round_hashes.filter (fun eh => decide (eh ≠ event_hash))).mapM
          (lookupA g.all_events) = some round →
      (∀ e ∈ round, (strongly_see g event_hash e.hash).isSome = true) →
      determine_round g event_hash =
        some (if (strongly_seen_witness_authors g event_hash round).card >
                2 * members_count g / 3
              then max rs ro + 1 else max rs ro)) := by
  obtain ⟨m, hm⟩ : ∃ m, g.all_events.length = m + 1 := by
    cases hl : g.all_events with
    | nil => rw [hl] at hev; cases hev
    | cons x t => exact ⟨t.length, rfl⟩
  constructor
  · intro hk
    unfold determine_round
    rw [hm]
    unfold determine_round_f
    rw [hev]
    dsimp only
    rw [hk]
  · intro ps rs ro round_hashes round hk hnc hrs hro hidx hmap htot
    unfold determine_round
    rw [hm]
    unfold determine_round_f
    rw [hev]
    dsimp only
    rw [hk]
    dsimp only
    rw [hnc]
    rw [determine_round_f_parent g ps.self_parent rs hrs m,
      determine_round_f_parent g ps.other_parent ro hro m]
    dsimp only
    rw [hidx]
    dsimp only
    rw [hmap]
    dsimp only
    rw [witness_authors_fold_eq g event_hash
      (round.filter (fun e => (lookupA g.witnesses e.hash).isSome)) ∅
      (fun e he => htot e (List.mem_of_mem_filter he))]
    rw [Finset.empty_union]
    unfold strongly_seen_witness_authors
    rw [List.filter_filter]
    rw [List.filter_congr
      (fun e _ => by rw [Bool.and_comm] :
        ∀ e ∈ round,
          (decide (strongly_see g event_hash e.hash = some true) &&
              (lookupA g.witnesses e.hash).isSome) =
            ((lookupA g.witnesses e.hash).isSome &&
              decide (strongly_see g event_hash e.hash = some true)))]

/-- C2 witness: the theorem's regular branch applied to the uncached
event `[3]` of `c2_graph`, whose parents are the two geneses. -/
theorem c2_determine_round_follows_spec_witness :
    determine_round c2_graph [3] =
      some (if (strongly_seen_witness_authors c2_graph [3]
                 [{ hash := [1], payload := 0, kind := GKind.Genesis, author := 0,
                    children := { self_child := some [3], other_children := [] } },
                  { hash := [2], payload := 0, kind := GKind.Genesis, author := 1,
                    children := { self_child := none, other_children := [[3]] } }]).card >
              2 * members_count c2_graph / 3
            then max 0 0 + 1 else max 0 0) :=
  (c2_determine_round_follows_spec c2_graph [3]
      { hash := [3], payload := 0,
        kind := GKind.Regular { self_parent := [1], other_parent := [2] },
        author := 0,
        children := { self_child := none, other_children := [] } }
      (by decide)).2
    { self_parent := [1], other_parent := [2] } 0 0 [[1], [2]]
    [{ hash := [1], payload := 0, kind := GKind.Genesis, author := 0,
       children := { self_child := some [3], other_children := [] } },
     { hash := [2], payload := 0, kind := GKind.Genesis, author := 1,
       children := { self_child := none, other_children := [[3]] } }]
    (by decide) (by decide) (by decide) (by decide) (by decide) (by decide) (by decide)

end Hashgraph

namespace AlgEvent

/-- The slice comparison returns `lt` exactly on lexicographically
smaller byte lists. -/
theorem bytes_cmp_lt_iff : ∀ (as bs : List Nat),
    bytes_cmp as bs = Ordering.lt ↔ List.Lex (· < ·) as bs
  | [], [] => iff_of_false (by decide) (fun h => nomatch h)
  | [], _ :: _ => iff_of_true rfl List.Lex.nil
  | _ :: _, [] => iff_of_false (by simp [bytes_cmp]) (fun h => nomatch h)
  | a :: as, b :: bs => by
    rcases Nat.lt_trichotomy a b with hab | hab | hab
    · rw [show bytes_cmp (a :: as) (b :: bs) = Ordering.lt from by
        simp [bytes_cmp, Nat.compare_eq_lt.mpr hab]]
      exact iff_of_true rfl (List.Lex.rel hab)
    · subst hab
      rw [show bytes_cmp (a :: as) (a :: bs) = bytes_cmp as bs from by
        simp [bytes_cmp, Nat.compare_eq_eq.mpr rfl]]
      rw [bytes_cmp_lt_iff as bs]
      exact (List.Lex.cons_iff).symm
    · rw [show bytes_cmp (a :: as) (b :: bs) = Ordering.gt from by
        simp [bytes_cmp, Nat.compare_eq_gt.mpr hab]]
      refine iff_of_false (by decide) (fun h => ?_)
      cases h with
      | cons h' => exact absurd rfl (Nat.ne_of_gt hab)
      | rel h' => exact absurd h' (Nat.lt_asymm hab)

/-- C10. `Hash` identity lives entirely in the 64 digest bytes: equality
is equality of the inner bytes, the order is lexicographic on them, both
ignore the cached compact fingerprint, and the by-value XOR keeps the
left operand's (stale) compact fingerprint while producing the same
bytes as the by-reference XOR that recomputes it. -/
theorem c10_hash_identity_ignores_compact (a b : Hash) :
    (hash_eq a b = true ↔ a.inner = b.inner) ∧
    (hash_cmp a b = Ordering.lt ↔ List.Lex (· < ·) a.inner b.inner) ∧
    (∀ ca cb : List Nat,
      hash_eq { inner := a.inner, compact := ca } { inner := b.inner, compact := cb } =
        hash_eq a b ∧
      hash_cmp { inner := a.inner, compact := ca } { inner := b.inner, compact := cb } =
        hash_cmp a b) ∧
    (∀ h : Hash, hash_bitxor_val a b = some h →
      h.compact = a.compact ∧ h.inner = (hash_bitxor_ref a b).inner) := by
  refine ⟨by simp [hash_eq], bytes_cmp_lt_iff a.inner b.inner,
    fun ca cb => ⟨rfl, rfl⟩, fun h hx => ?_⟩
  unfold hash_bitxor_val at hx
  by_cases hl : a.inner.length ≤ b.inner.length
  · rw [if_pos hl] at hx
    cases hx
    exact ⟨rfl, rfl⟩
  · rw [if_neg hl] at hx
    cases hx

/-- C10 witness: the by-value XOR of two concrete hashes keeps the stale
compact fingerprint while its bytes agree with the recomputing
by-reference XOR. -/
theorem c10_hash_identity_ignores_compact_witness :
    (({ inner := [3, 1], compact := [9] } : Hash).compact =
        ({ inner := [1, 2], compact := [9] } : Hash).compact) ∧
    (({ inner := [3, 1], compact := [9] } : Hash).inner =
        (hash_bitxor_ref { inner := [1, 2], compact := [9] }
          { inner := [2, 3], compact := [8] }).inner) :=
  (c10_hash_identity_ignores_compact
      { inner := [1, 2], compact := [9] } { inner := [2, 3], compact := [8] }).2.2.2
    { inner := [3, 1], compact := [9] } (by decide)

/-- C9. `with_signature` fails with `InvalidSignature` exactly when the
verifier rejects the stored digest, the signature and the author, and on
success returns the signed event carrying exactly the given unsigned
event and signature. -/
theorem c9_with_signature_spec {TP TG TI : Type} (u : UnsignedEvent TP TG TI)
    (s : Signature) (f : Hash → Signature → TI → Bool) :
    (with_signature u s f = Except.error WithSignatureCreationError.InvalidSignature ↔
      f u.hash s u.fields.author = false) ∧
    (∀ se, with_signature u s f = Except.ok se → se.unsigned = u ∧ se.signature = s) := by
  unfold with_signature
  cases hf : f u.hash s u.fields.author with
  | false =>
    refine ⟨iff_of_true (by rw [if_neg]; simp [hf]) rfl, fun se hse => ?_⟩
    rw [if_neg (by simp [hf])] at hse
    cases hse
  | true =>
    refine ⟨iff_of_false (by simp [hf]) (by simp), fun se hse => ?_⟩
    rw [if_pos hf] at hse
    cases hse
    exact ⟨rfl, rfl⟩

/-- C9 witness: the theorem applied to a concrete event and an
always-accepting verifier. -/
theorem c9_with_signature_spec_witness :
    ({ unsigned := c9_unsigned, signature := c9_signature } :
        SignedEvent Nat Nat Nat).unsigned = c9_unsigned ∧
    ({ unsigned := c9_unsigned, signature := c9_signature } :
        SignedEvent Nat Nat Nat).signature = c9_signature :=
  (c9_with_signature_spec c9_unsigned c9_signature (fun _ _ _ => true)).2
    { unsigned := c9_unsigned, signature := c9_signature } rfl

end AlgEvent

namespace Sync

open Hashgraph (lookupA)

/-- Looking up through a key-preserving value map. -/
theorem lookupA_map_val {H A B : Type} [DecidableEq H] (f : A → B) :
    ∀ (l : List (H × A)) (k : H),
      lookupA (l.map (fun x => (x.1, f x.2))) k = (lookupA l k).map f
  | [], _ => rfl
  | (k', v) :: t, k => by
    by_cases hk : k = k'
    · simp [lookupA, hk]
    · simp only [List.map_cons, lookupA, hk, if_neg]
      exact lookupA_map_val f t k

/-- The reversed view looks up the swapped value. -/
theorem lookupA_reversed {H : Type} [DecidableEq H] (K : DGraph H) (k : H) :
    lookupA (reversed K).adj k = (lookupA K.adj k).map (fun v => (v.2, v.1)) := by
  unfold reversed
  exact lookupA_map_val (fun v => (v.2, v.1)) K.adj k

/-- In-neighbors of the reversed view of a present node are its original
children. -/
theorem reversed_in_eq {H : Type} [DecidableEq H] (K : DGraph H) (k : H)
    (hk : memG K k) : in_neighbors (reversed K) k = some (childrenOf K k) := by
  unfold memG at hk
  obtain ⟨v, hv⟩ := Option.isSome_iff_exists.mp hk
  unfold in_neighbors childrenOf
  rw [lookupA_reversed, hv]
  rfl

/-- Out-neighbors of the reversed view of a present node are its
original parents. -/
theorem reversed_out_eq {H : Type} [DecidableEq H] (K : DGraph H) (k : H)
    (hk : memG K k) : out_neighbors (reversed K) k = some (parentsOf K k) := by
  unfold memG at hk
  obtain ⟨v, hv⟩ := Option.isSome_iff_exists.mp hk
  unfold out_neighbors parentsOf
  rw [lookupA_reversed, hv]
  rfl

/-- A successful lookup produces a member pair. -/
theorem lookupA_mem {H A : Type} [DecidableEq H] :
    ∀ {l : List (H × A)} {k : H} {v : A}, lookupA l k = some v → (k, v) ∈ l
  | [], _, _, h => by cases h
  | (k', v') :: t, k, v, h => by
    by_cases hk : k = k'
    · subst hk
      rw [lookupA, if_pos rfl] at h
      cases h
      exact List.mem_cons_self _ _
    · rw [lookupA, if_neg hk] at h
      exact List.mem_cons_of_mem _ (lookupA_mem h)

/-- Everything an out-neighbors query returns lies in the out-list
universe of the graph. -/
theorem nbrs_sub_universe {H : Type} [DecidableEq H] (g : DGraph H) (k : H)
    (nbrs : List H) (h : out_neighbors g k = some nbrs) :
    ∀ m ∈ nbrs, m ∈ outUniverse g := by
  intro m hm
  unfold out_neighbors at h
  cases hv : lookupA g.adj k with
  | none => rw [hv] at h; cases h
  | some v =>
    rw [hv] at h
    cases h
    have hpair := lookupA_mem hv
    unfold outUniverse
    rw [List.mem_toFinset, List.mem_flatten]
    exact ⟨v.2, List.mem_map.mpr ⟨(k, v), hpair, rfl⟩, hm⟩

/-- When every provided tip is a childless present node, validation
keeps them all. -/
theorem validate_tips_all {H : Type} [DecidableEq H] (K : DGraph H) :
    ∀ (tips : List H),
      (∀ t ∈ tips, memG K t ∧ childrenOf K t = []) →
      validate_tips (reversed K) tips = Except.ok tips
  | [], _ => rfl
  | h :: t, htips => by
    obtain ⟨hm, hc⟩ := htips h (List.mem_cons_self _ _)
    unfold validate_tips
    rw [reversed_in_eq K h hm, hc]
    rw [validate_tips_all K t (fun x hx => htips x (List.mem_cons_of_mem _ hx))]
    rfl

/-- Resolution succeeds listwise when every hash resolves. -/
theorem resolve_events_eq {H E : Type} (get_event : H → Option E) (evOf : H → E) :
    ∀ (l : List H), (∀ x ∈ l, get_event x = some (evOf x)) →
      resolve_events get_event l = Except.ok (l.map evOf)
  | [], _ => rfl
  | h :: t, hl => by
    unfold resolve_events
    rw [hl h (List.mem_cons_self _ _),
      resolve_events_eq get_event evOf t (fun x hx => hl x (List.mem_cons_of_mem _ hx))]
    rfl

/-- Splitting a list that ends in a single appended element: the split
point is the appended element, or the split is inside the prefix. -/
theorem append_singleton_split {α : Type} {l1 l2 sorted : List α} {x a : α}
    (h : l1 ++ x :: l2 = sorted ++ [a]) :
    (l1 = sorted ∧ x = a ∧ l2 = []) ∨
      (∃ l2', l2 = l2' ++ [a] ∧ sorted = l1 ++ x :: l2') := by
  cases l2 using List.reverseRecOn with
  | nil =>
    left
    have h' : l1 ++ [x] = sorted ++ [a] := h
    obtain ⟨h1, h2⟩ := List.append_inj' h' rfl
    cases h2
    exact ⟨h1, rfl, rfl⟩
  | append_singleton l2' a' =>
    right
    have h' : (l1 ++ x :: l2') ++ [a'] = sorted ++ [a] := by
      rw [← h]; simp
    obtain ⟨h1, h2⟩ := List.append_inj' h' rfl
    cases h2
    exact ⟨l2', rfl, h1.symm⟩

/-- In a duplicate-free list the split at an element is unique. -/
theorem nodup_split_unique {α : Type} {a1 : List α} :
    ∀ {l a2 b1 b2 : List α} {x : α}, l.Nodup →
      l = a1 ++ x :: a2 → l = b1 ++ x :: b2 → a1 = b1 ∧ a2 = b2 := by
  induction a1 with
  | nil =>
    intro l a2 b1 b2 x hnd ha hb
    subst ha
    cases b1 with
    | nil =>
      simp only [List.nil_append] at hb
      cases hb
      exact ⟨rfl, rfl⟩
    | cons y b1' =>
      simp only [List.nil_append, List.cons_append] at hb
      obtain ⟨hy, hrest⟩ := List.cons.inj hb
      subst hy
      simp only [List.nil_append, List.nodup_cons] at hnd
      refine absurd ?_ hnd.1
      rw [hrest]
      exact List.mem_append_right b1' (List.mem_cons_self x b2)
  | cons y a1' ih =>
    intro l a2 b1 b2 x hnd ha hb
    subst ha
    cases b1 with
    | nil =>
      simp only [List.nil_append, List.cons_append] at hb
      obtain ⟨hy, hrest⟩ := List.cons.inj hb
      subst hy
      simp only [List.cons_append, List.nodup_cons] at hnd
      exact absurd (List.mem_append_right a1' (List.mem_cons_self y a2)) hnd.1
    | cons z b1' =>
      simp only [List.cons_append] at hb
      obtain ⟨hy, hrest⟩ := List.cons.inj hb
      subst hy
      simp only [List.cons_append, List.nodup_cons] at hnd
      obtain ⟨h1, h2⟩ := ih hnd.2 rfl hrest
      exact ⟨by rw [h1], h2⟩

end Sync

namespace Sync

/-- What the neighbor loop guarantees: it succeeds on in-graph neighbor
lists, grows the scheduled set by exactly the appended (duplicate-free)
queue entries — each unscheduled, unknown to the peer, unvisited and with
all children visited — and schedules or has visited every unknown
neighbor whose children are all visited. -/
theorem process_neighbors_spec {H : Type} [DecidableEq H] (K : DGraph H)
    (knows : H → Bool) (next : H) (visited : Finset H) :
    ∀ (nbrs : List H) (tvs : Finset H),
      (∀ m ∈ nbrs, memG K m) →
      ∃ tvs' adds,
        process_neighbors (reversed K) knows next visited nbrs tvs =
          Except.ok (tvs', adds) ∧
        tvs' = tvs ∪ adds.toFinset ∧
        tvs'.card = tvs.card + adds.length ∧
        adds.Nodup ∧
        (∀ m ∈ adds, m ∈ nbrs ∧ m ∉ tvs ∧ knows m = false ∧ m ∉ visited ∧
          ∀ c ∈ childrenOf K m, c ∈ visited) ∧
        (∀ m ∈ nbrs, knows m = false → (∀ c ∈ childrenOf K m, c ∈ visited) →
          m ∈ visited ∨ m ∈ tvs')
  | [], tvs, _ =>
    ⟨tvs, [], rfl, by simp, by simp, List.nodup_nil, by simp, by simp⟩
  | m :: ms, tvs, hmem => by
    have hmemtail : ∀ x ∈ ms, memG K x :=
      fun x hx => hmem x (List.mem_cons_of_mem _ hx)
    unfold process_neighbors
    by_cases h1 : m ∈ tvs
    · rw [if_pos h1]
      obtain ⟨tvs', adds, hrun, hun, hcard, hnd, hadds, hcomp⟩ :=
        process_neighbors_spec K knows next visited ms tvs hmemtail
      refine ⟨tvs', adds, hrun, hun, hcard, hnd, ?_, ?_⟩
      · intro x hx
        obtain ⟨ha, hb, hc, hd, he⟩ := hadds x hx
        exact ⟨List.mem_cons_of_mem _ ha, hb, hc, hd, he⟩
      · intro x hx hk hc
        rcases List.mem_cons.mp hx with hx | hx
        · subst hx
          right
          rw [hun]
          exact Finset.mem_union_left _ h1
        · exact hcomp x hx hk hc
    · rw [if_neg h1]
      by_cases h2 : knows m = true
      · rw [if_pos h2]
        obtain ⟨tvs', adds, hrun, hun, hcard, hnd, hadds, hcomp⟩ :=
          process_neighbors_spec K knows next visited ms tvs hmemtail
        refine ⟨tvs', adds, hrun, hun, hcard, hnd, ?_, ?_⟩
        · intro x hx
          obtain ⟨ha, hb, hc, hd, he⟩ := hadds x hx
          exact ⟨List.mem_cons_of_mem _ ha, hb, hc, hd, he⟩
        · intro x hx hk hc
          rcases List.mem_cons.mp hx with hx | hx
          · subst hx
            rw [h2] at hk
            cases hk
          · exact hcomp x hx hk hc
      · rw [if_neg h2]
        rw [reversed_in_eq K m (hmem m (List.mem_cons_self _ _))]
        dsimp only
        by_cases h3 : (childrenOf K m).all (fun i => decide (i ∈ visited)) = true
        · rw [if_pos h3]
          by_cases h4 : m ∈ visited
          · rw [if_pos h4]
            obtain ⟨tvs', adds, hrun, hun, hcard, hnd, hadds, hcomp⟩ :=
              process_neighbors_spec K knows next visited ms tvs hmemtail
            refine ⟨tvs', adds, hrun, hun, hcard, hnd, ?_, ?_⟩
            · intro x hx
              obtain ⟨ha, hb, hc, hd, he⟩ := hadds x hx
              exact ⟨List.mem_cons_of_mem _ ha, hb, hc, hd, he⟩
            · intro x hx hk hc
              rcases List.mem_cons.mp hx with hx | hx
              · subst hx
                exact Or.inl h4
              · exact hcomp x hx hk hc
          · rw [if_neg h4]
            obtain ⟨tvs', adds, hrun, hun, hcard, hnd, hadds, hcomp⟩ :=
              process_neighbors_spec K knows next visited ms (insert m tvs) hmemtail
            rw [hrun]
            have hmadds : m ∉ adds := by
              intro hin
              exact (hadds m hin).2.1 (Finset.mem_insert_self m tvs)
            refine ⟨tvs', m :: adds, rfl, ?_, ?_, List.nodup_cons.mpr ⟨hmadds, hnd⟩, ?_, ?_⟩
            · rw [hun, List.toFinset_cons, Finset.union_insert, Finset.insert_union]
            · rw [hcard, Finset.card_insert_of_not_mem h1]
              simp only [List.length_cons]
              omega
            · intro x hx
              rcases List.mem_cons.mp hx with hx | hx
              · subst hx
                refine ⟨List.mem_cons_self _ _, h1, Bool.eq_false_iff.mpr h2, h4, ?_⟩
                intro c hc
                exact of_decide_eq_true (List.all_eq_true.mp h3 c hc)
              · obtain ⟨ha, hb, hc, hd, he⟩ := hadds x hx
                exact ⟨List.mem_cons_of_mem _ ha,
                  fun hxm => hb (Finset.mem_insert_of_mem hxm), hc, hd, he⟩
            · intro x hx hk hc
              rcases List.mem_cons.mp hx with hx | hx
              · subst hx
                right
                rw [hun]
                exact Finset.mem_union_left _ (Finset.mem_insert_self x tvs)
              · exact hcomp x hx hk hc
        · rw [if_neg h3]
          obtain ⟨tvs', adds, hrun, hun, hcard, hnd, hadds, hcomp⟩ :=
            process_neighbors_spec K knows next visited ms tvs hmemtail
          refine ⟨tvs', adds, hrun, hun, hcard, hnd, ?_, ?_⟩
          · intro x hx
            obtain ⟨ha, hb, hc, hd, he⟩ := hadds x hx
            exact ⟨List.mem_cons_of_mem _ ha, hb, hc, hd, he⟩
          · intro x hx hk hc
            rcases List.mem_cons.mp hx with hx | hx
            · subst hx
              refine absurd (List.all_eq_true.mpr ?_) h3
              intro c hcc
              exact decide_eq_true (hc c hcc)
            · exact hcomp x hx hk hc

end Sync

namespace Sync

/-- The BFS loop, started in an invariant state with enough fuel,
terminates with an emitted order that is duplicate-free, sound (members
are unknown in-graph ancestors of the tips), child-closed position-wise
(every child of an emitted node is emitted before it), and saturated
(every unknown node all of whose children are emitted is emitted). -/
theorem sync_loop_post {H : Type} [DecidableEq H] (K : DGraph H) (knows : H → Bool)
    (tips : List H)
    (Hpo : ∀ x, memG K x → ∀ p ∈ parentsOf K x, memG K p)
    (Hcoh : ∀ x y, memG K x → memG K y → (y ∈ childrenOf K x ↔ x ∈ parentsOf K y)) :
    ∀ (fuel : Nat) (st : LoopState H), LoopInv K knows tips st →
      fuel > st.to_visit.length +
        ((outUniverse (reversed K)).card - st.to_visit_set.card) →
      ∃ L, sync_loop (reversed K) knows fuel st = some (Except.ok L) ∧
        L.Nodup ∧
        (∀ x ∈ L, memG K x ∧ knows x = false ∧ ∃ t ∈ tips, ReachUp K t x) ∧
        (∀ l1 x l2, L = l1 ++ x :: l2 → ∀ c ∈ childrenOf K x, c ∈ l1) ∧
        (∀ x, memG K x → knows x = false → (∀ c ∈ childrenOf K x, c ∈ L) → x ∈ L) := by
  intro fuel
  induction fuel with
  | zero => intro st _ hf; omega
  | succ fuel ih =>
    intro st hinv hf
    cases hq : st.to_visit with
    | nil =>
      refine ⟨st.sorted, ?_, hinv.nodup, hinv.sound, hinv.topo, ?_⟩
      · conv_lhs => rw [sync_loop]
        rw [hq]
      · intro x hx hk hc
        rcases hinv.saturated x hx hk (fun c hcc => by
            rw [hinv.vis_eq]
            exact List.mem_toFinset.mpr (hc c hcc)) with h | h
        · rw [hinv.vis_eq] at h
          exact List.mem_toFinset.mp h
        · rw [hq] at h
          cases h
    | cons next rest =>
      have hqs : ∀ x ∈ next :: rest, memG K x ∧ knows x = false ∧
          (∃ t ∈ tips, ReachUp K t x) ∧ ∀ c ∈ childrenOf K x, c ∈ st.visited :=
        hq ▸ hinv.queue_sound
      obtain ⟨hmemn, hkn, hreachn, hchn⟩ := hqs next (List.mem_cons_self _ _)
      by_cases hnv : next ∈ st.visited
      · have hstep : sync_loop (reversed K) knows (fuel + 1) st =
            sync_loop (reversed K) knows fuel { st with to_visit := rest } := by
          conv_lhs => rw [sync_loop]
          rw [hq]
          dsimp only
          rw [if_pos hnv]
        have hinv' : LoopInv K knows tips { st with to_visit := rest } := by
          refine ⟨hinv.nodup, hinv.vis_eq, hinv.sound, hinv.topo,
            fun x hx => hqs x (List.mem_cons_of_mem _ hx), ?_, ?_, hinv.tvs_univ⟩
          · intro x hx hk hc
            rcases hinv.saturated x hx hk hc with h | h
            · exact Or.inl h
            · rw [hq] at h
              rcases List.mem_cons.mp h with h | h
              · subst h
                exact Or.inl hnv
              · exact Or.inr h
          · intro x hx
            rcases hinv.tvs_sub x hx with h | h
            · exact Or.inl h
            · rw [hq] at h
              rcases List.mem_cons.mp h with h | h
              · subst h
                exact Or.inl hnv
              · exact Or.inr h
        obtain ⟨L, hL, hLprops⟩ := ih { st with to_visit := rest } hinv' (by
          rw [hq] at hf
          simp only [List.length_cons] at hf
          dsimp only
          omega)
        exact ⟨L, by rw [hstep]; exact hL, hLprops⟩
      · have hout : out_neighbors (reversed K) next = some (parentsOf K next) :=
          reversed_out_eq K next hmemn
        obtain ⟨tvs', adds, hrun, hun, hcard, hnd, hadds, hcomp⟩ :=
          process_neighbors_spec K knows next (insert next st.visited)
            (parentsOf K next) st.to_visit_set (Hpo next hmemn)
        have hstep : sync_loop (reversed K) knows (fuel + 1) st =
            sync_loop (reversed K) knows fuel
              { to_visit := rest ++ adds
                to_visit_set := tvs'
                visited := insert next st.visited
                sorted := st.sorted ++ [next] } := by
          conv_lhs => rw [sync_loop]
          rw [hq]
          dsimp only
          rw [if_neg hnv, hout]
          dsimp only
          rw [hrun]
        have hnextS : next ∉ st.sorted := by
          intro h
          exact hnv (hinv.vis_eq ▸ List.mem_toFinset.mpr h)
        have htvs_sub' : ∀ y ∈ tvs', y ∈ insert next st.visited ∨ y ∈ rest ++ adds := by
          intro y hy
          rw [hun] at hy
          rcases Finset.mem_union.mp hy with hy | hy
          · rcases hinv.tvs_sub y hy with h | h
            · exact Or.inl (Finset.mem_insert_of_mem h)
            · rw [hq] at h
              rcases List.mem_cons.mp h with h | h
              · subst h
                exact Or.inl (Finset.mem_insert_self _ _)
              · exact Or.inr (List.mem_append_left _ h)
          · exact Or.inr (List.mem_append_right _ (List.mem_toFinset.mp hy))
        have hinv' : LoopInv K knows tips
            { to_visit := rest ++ adds
              to_visit_set := tvs'
              visited := insert next st.visited
              sorted := st.sorted ++ [next] } := by
          refine ⟨?_, ?_, ?_, ?_, ?_, ?_, htvs_sub', ?_⟩
          · rw [List.nodup_append]
            exact ⟨hinv.nodup, List.nodup_singleton _,
              fun a ha hb => hnextS ((List.mem_singleton.mp hb) ▸ ha)⟩
          · rw [List.toFinset_append, List.toFinset_cons, List.toFinset_nil,
              hinv.vis_eq]
            rw [Finset.union_comm]
            simp [Finset.insert_eq]
          · intro x hx
            rcases List.mem_append.mp hx with hx | hx
            · exact hinv.sound x hx
            · rcases List.mem_singleton.mp hx with rfl
              exact ⟨hmemn, hkn, hreachn⟩
          · intro l1 x l2 hsplit c hc
            rcases append_singleton_split hsplit.symm with ⟨h1, h2, _⟩ | ⟨l2', _, h2⟩
            · subst h1
              subst h2
              rw [hinv.vis_eq] at hchn
              exact List.mem_toFinset.mp (hchn c hc)
            · exact hinv.topo l1 x l2' h2 c hc
          · intro x hx
            rcases List.mem_append.mp hx with hx | hx
            · obtain ⟨h1, h2, h3, h4⟩ := hqs x (List.mem_cons_of_mem _ hx)
              exact ⟨h1, h2, h3, fun c hc => Finset.mem_insert_of_mem (h4 c hc)⟩
            · obtain ⟨hpar, _, hkx, _, hcx⟩ := hadds x hx
              obtain ⟨t, ht, hr⟩ := hreachn
              exact ⟨Hpo next hmemn x hpar, hkx,
                ⟨t, ht, Relation.ReflTransGen.tail hr hpar⟩, hcx⟩
          · intro x hx hk hc
            by_cases hcx : next ∈ childrenOf K x
            · have hx_par : x ∈ parentsOf K next := (Hcoh x next hx hmemn).mp hcx
              rcases hcomp x hx_par hk hc with h | h
              · exact Or.inl h
              · exact htvs_sub' x h
            · have hsub : ∀ c ∈ childrenOf K x, c ∈ st.visited := by
                intro c hcc
                rcases Finset.mem_insert.mp (hc c hcc) with h | h
                · subst h
                  exact absurd hcc hcx
                · exact h
              rcases hinv.saturated x hx hk hsub with h | h
              · exact Or.inl (Finset.mem_insert_of_mem h)
              · rw [hq] at h
                rcases List.mem_cons.mp h with h | h
                · subst h
                  exact Or.inl (Finset.mem_insert_self _ _)
                · exact Or.inr (List.mem_append_left _ h)
          · rw [hun]
            intro y hy
            rcases Finset.mem_union.mp hy with hy | hy
            · exact hinv.tvs_univ hy
            · exact nbrs_sub_universe (reversed K) next (parentsOf K next) hout y
                ((hadds y (List.mem_toFinset.mp hy)).1)
        have hfuel' : fuel > (rest ++ adds).length +
            ((outUniverse (reversed K)).card - tvs'.card) := by
          have hle : tvs'.card ≤ (outUniverse (reversed K)).card :=
            Finset.card_le_card hinv'.tvs_univ
          rw [hq] at hf
          simp only [List.length_cons] at hf
          rw [List.length_append]
          omega
        obtain ⟨L, hL, hLprops⟩ := ih _ hinv' hfuel'
        exact ⟨L, by rw [hstep]; exact hL, hLprops⟩

end Sync

namespace Sync

/-- Reachability through parents stays inside the graph. -/
theorem reach_memG {H : Type} [DecidableEq H] (K : DGraph H)
    (Hpo : ∀ x, memG K x → ∀ p ∈ parentsOf K x, memG K p)
    {t x : H} (htr : ReachUp K t x) (ht : memG K t) : memG K x := by
  induction htr with
  | refl => exact ht
  | tail _ step ihm => exact Hpo _ ihm _ step

/-- C6 amended. On a valid input where, additionally, the provided tips
are exactly the childless events of the graph (the spec's definition of
`local_tips`), the graph is acyclic (witnessed by a rank decreasing from
parents to children), adjacency is closed and coherent, peer knowledge
is closed under ancestry and every graph event resolves, `Jobs::generate`
returns exactly the events reachable from the tips that the peer does
not know, without duplicates, and every parent in the output precedes
each of its children. -/
theorem c6_generate_spec {H E : Type} [DecidableEq H] (K : DGraph H)
    (knows : H → Bool) (tips : List H) (get_event : H → Option E)
    (evOf : H → E) (rank : H → Nat)
    (Hco : ∀ x, memG K x → ∀ c ∈ childrenOf K x, memG K c)
    (Hpo : ∀ x, memG K x → ∀ p ∈ parentsOf K x, memG K p)
    (Hcoh : ∀ x y, memG K x → memG K y → (y ∈ childrenOf K x ↔ x ∈ parentsOf K y))
    (Hrank : ∀ x, memG K x → ∀ c ∈ childrenOf K x, rank c < rank x)
    (Htips1 : ∀ t ∈ tips, memG K t ∧ childrenOf K t = [])
    (Htips2 : ∀ x, memG K x → childrenOf K x = [] → x ∈ tips)
    (Hknows : ∀ x, memG K x → ∀ c ∈ childrenOf K x, knows c = true → knows x = true)
    (Hget : ∀ x, memG K x → get_event x = some (evOf x)) :
    ∃ L : List H,
      generate K knows tips get_event = some (Except.ok { inner := L.map evOf }) ∧
      L.Nodup ∧
      (∀ x, x ∈ L ↔ ((∃ t ∈ tips, ReachUp K t x) ∧ knows x = false)) ∧
      (∀ l1 x l2, L = l1 ++ x :: l2 → ∀ p ∈ parentsOf K x, p ∈ L → p ∈ l1) := by
  have hval : validate_tips (reversed K) tips = Except.ok tips :=
    validate_tips_all K tips Htips1
  set srcs : List H := tips.filter (fun h => ! knows h) with hsrcs
  set fuel0 : Nat := srcs.length +
    ((reversed K).adj.map (fun x => x.2.2.length)).sum + 1 with hfuel0
  have hinv0 : LoopInv K knows tips
      { to_visit := srcs, to_visit_set := ∅, visited := ∅, sorted := [] } := by
    refine ⟨List.nodup_nil, by simp, by simp, ?_, ?_, ?_, ?_, Finset.empty_subset _⟩
    · intro l1 x l2 h
      simp at h
    · intro x hx
      obtain ⟨hxt, hxk⟩ := List.mem_filter.mp hx
      obtain ⟨hm, hcl⟩ := Htips1 x hxt
      refine ⟨hm, by simpa using hxk, ⟨x, hxt, Relation.ReflTransGen.refl⟩, ?_⟩
      intro c hc
      rw [hcl] at hc
      cases hc
    · intro x hm hk hc
      cases hcl : childrenOf K x with
      | nil =>
        right
        exact List.mem_filter.mpr ⟨Htips2 x hm hcl, by simp [hk]⟩
      | cons c cs =>
        exact absurd (hc c (hcl ▸ List.mem_cons_self c cs)) (Finset.not_mem_empty c)
    · intro x hx
      exact absurd hx (Finset.not_mem_empty x)
  have hfuel : fuel0 >
      (({ to_visit := srcs, to_visit_set := ∅, visited := ∅,
          sorted := [] } : LoopState H)).to_visit.length +
        ((outUniverse (reversed K)).card - (∅ : Finset H).card) := by
    have hcardle : (outUniverse (reversed K)).card ≤
        ((reversed K).adj.map (fun x => x.2.2.length)).sum := by
      unfold outUniverse
      refine le_trans (List.toFinset_card_le _) ?_
      rw [List.length_flatten, List.map_map]
      exact le_of_eq rfl
    simp only [Finset.card_empty, Nat.sub_zero]
    rw [hfuel0]
    omega
  obtain ⟨L0, hrun, hnd0, hsound0, htopo0, hsat0⟩ :=
    sync_loop_post K knows tips Hpo Hcoh fuel0
      { to_visit := srcs, to_visit_set := ∅, visited := ∅, sorted := [] } hinv0 hfuel
  have hmemL0 : ∀ x ∈ L0.reverse, get_event x = some (evOf x) := by
    intro x hx
    exact Hget x (hsound0 x (List.mem_reverse.mp hx)).1
  have hres : resolve_events get_event L0.reverse = Except.ok (L0.reverse.map evOf) :=
    resolve_events_eq get_event evOf L0.reverse hmemL0
  have hcomplete : ∀ n x, rank x < n → memG K x → knows x = false → x ∈ L0 := by
    intro n
    induction n with
    | zero => intro x h; omega
    | succ n ihn =>
      intro x hr hm hk
      refine hsat0 x hm hk ?_
      intro c hc
      refine ihn c (by have := Hrank x hm c hc; omega) (Hco x hm c hc) ?_
      cases hkc : knows c with
      | false => rfl
      | true =>
        have h2 := Hknows x hm c hc hkc
        rw [hk] at h2
        exact absurd h2 (by decide)
  refine ⟨L0.reverse, ?_, List.nodup_reverse.mpr hnd0, ?_, ?_⟩
  · unfold generate
    dsimp only
    rw [hval]
    dsimp only
    rw [← hsrcs, ← hfuel0, hrun]
    dsimp only
    rw [hres]
  · intro x
    rw [List.mem_reverse]
    constructor
    · intro hx
      obtain ⟨_, hk, hr⟩ := hsound0 x hx
      exact ⟨hr, hk⟩
    · rintro ⟨⟨t, ht, htr⟩, hk⟩
      have hm : memG K x := reach_memG K Hpo htr (Htips1 t ht).1
      exact hcomplete (rank x + 1) x (Nat.lt_succ_self _) hm hk
  · intro l1 x l2 hsplit p hpar hpL
    have hxL0 : x ∈ L0 := by
      rw [← List.reverse_reverse L0, hsplit]
      exact List.mem_reverse.mpr (by simp)
    have hpL0 : p ∈ L0 := List.mem_reverse.mp (hsplit ▸ hpL)
    have hmx : memG K x := (hsound0 x hxL0).1
    have hmp : memG K p := (hsound0 p hpL0).1
    have hxc : x ∈ childrenOf K p := (Hcoh p x hmp hmx).mpr hpar
    obtain ⟨m1, m2, hm12⟩ := List.append_of_mem hpL0
    have hxm1 : x ∈ m1 := htopo0 m1 p m2 hm12 x hxc
    obtain ⟨u, v, huv⟩ := List.append_of_mem hxm1
    have hL0x : L0 = u ++ x :: (v ++ p :: m2) := by
      rw [hm12, huv]
      simp
    have hL0x' : L0 = l2.reverse ++ x :: l1.reverse := by
      rw [← List.reverse_reverse L0, hsplit]
      simp
    obtain ⟨_, h2⟩ := nodup_split_unique hnd0 hL0x hL0x'
    rw [← List.mem_reverse]
    rw [← h2]
    exact List.mem_append_right v (List.mem_cons_self p m2)

end Sync

namespace Sync

/-- The only nodes of `c6_graph` are `0`, `1` and `2`. -/
theorem mem_c6 : ∀ x : Nat, memG c6_graph x → x = 0 ∨ x = 1 ∨ x = 2 := by
  intro x hx
  unfold memG at hx
  simp only [c6_graph, Hashgraph.lookupA] at hx
  split_ifs at hx with h0 h1 h2
  · exact Or.inl h0
  · exact Or.inr (Or.inl h1)
  · exact Or.inr (Or.inr h2)
  · simp at hx

/-- C6 counterexample. On the diamond `c6_graph` with nobody known to
the peer (knowledge trivially closed under ancestry) and the valid —
present — tip list `[1]`, `generate` emits only event `1`, although
event `0` is reachable from that tip (it is its parent) and unknown to
the peer: the output is not *exactly* the reachable unknown events, so
tip presence and knowledge closure alone do not suffice. -/
theorem c6_partial_tips_drops_reachable_cex :
    generate c6_graph (fun _ => false) [1] (fun h => some h) =
      some (Except.ok { inner := [1] }) ∧
    memG c6_graph 1 ∧
    ReachUp c6_graph 1 0 ∧
    (fun _ => (false : Bool)) 0 = false ∧
    (0 : Nat) ∉ [1] := by
  refine ⟨by decide, by decide, ?_, rfl, by decide⟩
  exact Relation.ReflTransGen.single (by decide)

/-- C6 witness: the amended theorem applied to the diamond with both
tips provided. -/
theorem c6_generate_spec_witness :
    ∃ L : List Nat,
      generate c6_graph (fun _ => false) [1, 2] (fun h => some h) =
        some (Except.ok { inner := L.map (fun h => h) }) ∧
      L.Nodup ∧
      (∀ x, x ∈ L ↔ ((∃ t ∈ [1, 2], ReachUp c6_graph t x) ∧
        (fun _ => (false : Bool)) x = false)) ∧
      (∀ l1 x l2, L = l1 ++ x :: l2 → ∀ p ∈ parentsOf c6_graph x, p ∈ L → p ∈ l1) :=
  c6_generate_spec c6_graph (fun _ => false) [1, 2] (fun h => some h)
    (fun h => h) c6_rank
    (by intro x hx; rcases mem_c6 x hx with rfl | rfl | rfl <;> decide)
    (by intro x hx; rcases mem_c6 x hx with rfl | rfl | rfl <;> decide)
    (by
      intro x y hx hy
      rcases mem_c6 x hx with rfl | rfl | rfl <;>
        rcases mem_c6 y hy with rfl | rfl | rfl <;> decide)
    (by intro x hx; rcases mem_c6 x hx with rfl | rfl | rfl <;> decide)
    (by decide)
    (by intro x hx; rcases mem_c6 x hx with rfl | rfl | rfl <;> decide)
    (by intro x hx; rcases mem_c6 x hx with rfl | rfl | rfl <;> decide)
    (fun x _ => rfl)

end Sync
